import Mathlib

/-!
Verification development for the SMC sampler in
`src/models/samplers/base_sampler.py`.

The embedding represents a particle (one row of the `N×D` coordinate array)
as an opaque value of a type `α`, and a weight scalar (one entry of the SMC
weight vector `A`) as a value of a type `β`.  Real-number arithmetic of the
source is modelled over `ℚ`.  The exponential used by `torch.softmax` is a
parameter `expW : β → ℚ` of the sampler (instantiated by any positive
function), and NaN detection (`Tensor.isnan`) is modelled by the predicates
`isnanP`/`isnanW`, so that the NaN control flow of the driver is captured
without a floating-point model.  Fallible code (Python `raise` / `assert`)
is modelled with `Except String`.
-/

/-- Trace entry emitted by the embedded SMC driver: one entry per
`mcmc_kernel` invocation (with the schedule time `t` and the increment `dt`
it received), and one entry per `resample` invocation (`final` marks the
unconditional terminal resampling; `wBefore`/`wAfter` are the weight vector
immediately before and immediately after the resampling event). -/
inductive SMCEvent (β : Type) where
  | kernelCall (t dt : ℚ)
  | resampleEvent (final : Bool) (wBefore wAfter : List β)
  deriving DecidableEq

/-- Configuration and collaborators of `SMCSampler.__init__` (plus the
abstract `mcmc_kernel` method and the external collaborators the driver
calls).  `langevin_eps` is the initial value of the one piece of mutable
state; the driver threads its current value through the loop state. -/
structure SMCSampler (α β : Type) where
  batch_size : ℕ
  langevin_eps : ℚ
  num_timesteps : ℕ
  ess_threshold : ℚ
  systematic_resampling : Bool
  adaptive_step_size : Bool
  warmup : ℚ
  enabled : Bool
  input_energy_cutoff : Option ℚ
  /-- The abstract method `mcmc_kernel(source_energy, target_energy, t, x, logw, dt)`,
  returning `(x', logw', acceptance_rate.view(-1))`. -/
  mcmc_kernel : (List α → List ℚ) → (List α → List ℚ) → ℚ → ℚ → List α → List β →
    List α × List β × List ℚ
  /-- Models the exponential applied to a weight scalar by `torch.softmax`. -/
  expW : β → ℚ
  /-- Models the scalar `1.0` produced by `torch.ones` / `torch.ones_like`. -/
  oneW : β
  /-- Models `isnan` on one particle's coordinate row. -/
  isnanP : α → Bool
  /-- Models `isnan` on one weight scalar. -/
  isnanW : β → Bool
  /-- The external ESS helper `sampling_efficiency` from `src.evaluation.metrics.ess`. -/
  sampling_efficiency : List β → ℚ

/-- Fuelled helper for `toBatches` (structural recursion on the fuel). -/
def toBatchesGo (b : ℕ) : ℕ → List γ → List (List γ)
  | _, [] => []
  | 0, _ :: _ => []
  | fuel + 1, x :: xs =>
      if b = 0 then []
      else ((x :: xs).take b) :: toBatchesGo b fuel ((x :: xs).drop b)

/-- The batch slicing `[l[i : i + b] for i in range(0, len(l), b)]` used by
`sample`.  Python raises on a zero step, so `b = 0` is out of contract and
mapped to `[]`.  Defined through the fuelled helper `toBatchesGo` (the fuel
`l.length` never runs out when `0 < b`) so that it is structurally
recursive. -/
def toBatches (b : ℕ) (l : List γ) : List (List γ) :=
  toBatchesGo b l.length l

/-- Integer fancy indexing `x[indexes]` of a 1-D sequence (`x[indexes]`,
`particle_ids[indexes]`).  All callers establish that every index is in
range, so the default value is never used there. -/
def indexSel [Inhabited γ] (x : List γ) (idx : List ℕ) : List γ :=
  idx.map (fun i => x.getD i default)

/-- Boolean-mask indexing `x[mask]` of a 1-D sequence (numpy/torch
semantics: keep the entries whose mask is `true`, in order). -/
def maskSelect (x : List γ) (mask : List Bool) : List γ :=
  ((x.zip mask).filter (fun p => p.2)).map (fun p => p.1)

/-- Models `torch.softmax(logw, dim=-1)`: exponentiate entrywise (via the
sampler's `expW` parameter) and normalise by the sum. -/
def softmax (expW : β → ℚ) (logw : List β) : List ℚ :=
  (logw.map expW).map (fun v => v / (logw.map expW).sum)

/-- Models `torch.cumsum(w, dim=0)`: the list of partial sums
`[w₀, w₀+w₁, …]`, with the same length as `w`. -/
def cumsum : List ℚ → List ℚ
  | [] => []
  | a :: rest => a :: (cumsum rest).map (fun v => a + v)

/-- Models `torch.searchsorted(c, v)` (default left insertion) on a sorted
sequence `c`: the number of entries strictly below `v`, which for sorted `c`
is the leftmost index `i` with `v ≤ c[i]` (or `len c` when none exists). -/
def searchsorted (c : List ℚ) (v : ℚ) : ℕ :=
  c.countP (fun x => decide (x < v))

/-- Models one draw of `torch.multinomial(w, ·, replacement=True)` by
inverse-CDF selection from the cumulative weights `c` at a uniform variate
`u ∈ [0,1)`: the first index `i` with `u < c[i]`. -/
def inverseCDFIndex (c : List ℚ) (u : ℚ) : ℕ :=
  c.countP (fun x => decide (x ≤ u))

/-- Mean of a tensor viewed as a flat list (`Tensor.mean`). -/
def listMean (l : List ℚ) : ℚ :=
  l.sum / (l.length : ℚ)

/-- The method `update_step_size`: returns the new value of the mutable
`langevin_eps` given the observed mean acceptance rate. -/
def update_step_size (langevin_eps acceptance_rate : ℚ) : ℚ :=
  if acceptance_rate > 0.6 then langevin_eps * 1.1
  else if acceptance_rate < 0.55 then langevin_eps / 1.1
  else langevin_eps

/-- The method `langevin_eps_fn`: linear warmup ramp of the step size. -/
def langevin_eps_fn (langevin_eps warmup t : ℚ) : ℚ :=
  if t < warmup then langevin_eps * t / warmup else langevin_eps

/-- The method `init_timesteps`: `torch.linspace(0, 1, num_timesteps + 1)`,
i.e. the `T+1` evenly spaced schedule times `i / T` for `i = 0 … T`. -/
def init_timesteps (num_timesteps : ℕ) : List ℚ :=
  (List.range (num_timesteps + 1)).map (fun i : ℕ => (i : ℚ) / (num_timesteps : ℚ))

/-- The method `linear_energy_interpolation`.  The two `assert` statements
on the energy shapes are modelled by returning `none` when either energy
vector does not have the batch length. -/
def linear_energy_interpolation (source_energy target_energy : List α → List ℚ)
    (t : ℚ) (x : List α) : Option (List ℚ) :=
  let E_source := source_energy x
  let E_target := target_energy x
  if E_source.length = x.length ∧ E_target.length = x.length then
    some (List.zipWith (fun es et => (1 - t) * es + t * et) E_source E_target)
  else none

/-- The input filtering at the start of `sample`:
`proposal_samples[target_energy(proposal_samples) < input_energy_cutoff]`
when a cutoff is configured, the identity otherwise. -/
def init_filter (S : SMCSampler α β) (target_energy : List α → List ℚ)
    (proposal_samples : List α) : List α :=
  match S.input_energy_cutoff with
  | none => proposal_samples
  | some cutoff =>
      maskSelect proposal_samples
        ((target_energy proposal_samples).map (fun e => decide (e < cutoff)))

/-- The method `resample`.  Consumes uniform variates from the front of the
stream `rng` (one draw `torch.rand(1)` for systematic resampling, `len x`
draws for multinomial resampling) and returns `((x[indexes], indexes), rng')`
with `rng'` the unconsumed remainder of the stream. -/
def resample [Inhabited α] (S : SMCSampler α β) (x : List α) (logw : List β)
    (rng : List ℚ) : (List α × List ℕ) × List ℚ :=
  if S.systematic_resampling then
    let N := logw.length
    let w := softmax S.expW logw
    let c := cumsum w
    let u := rng.getD 0 0 / (N : ℚ)
    let indexes := (List.range N).map (fun k : ℕ => searchsorted c (u + (k : ℚ) / (N : ℚ)))
    ((indexSel x indexes, indexes), rng.drop 1)
  else
    let w := softmax S.expW logw
    let c := cumsum w
    let indexes := (List.range x.length).map (fun k => inverseCDFIndex c (rng.getD k 0))
    ((indexSel x indexes, indexes), rng.drop x.length)

/-- A local-move kernel that acts on each particle independently: the batch
result is the entrywise image of a per-particle move
`k t dt xᵢ logwᵢ = (xᵢ', logwᵢ', accᵢ)`.  This is the contract hypothesis of
the batching-invariance property. -/
def pointwiseKernel (k : ℚ → ℚ → α → β → α × β × ℚ) :
    (List α → List ℚ) → (List α → List ℚ) → ℚ → ℚ → List α → List β →
      List α × List β × List ℚ :=
  fun _ _ t dt xs ws =>
    let r := (xs.zip ws).map (fun p => k t dt p.1 p.2)
    (r.map (fun y => y.1), r.map (fun y => y.2.1), r.map (fun y => y.2.2))

/-- Mutable state threaded through the driving loop of `sample`: the
particle coordinates `X`, the SMC weight vector `A`, the current value of
the adaptive step size, the lineage ids, and the unconsumed stream of
uniform random variates feeding `resample`. -/
structure SMCState (α β : Type) where
  X : List α
  A : List β
  eps : ℚ
  particle_ids : List ℕ
  rng : List ℚ
  deriving DecidableEq

/-- Accumulated result of the per-batch kernel loop of one step of
`sample`: the updated batches of coordinates and weights, the per-batch
flattened acceptance indicators, and the kernel-invocation trace. -/
structure BatchOut (α β : Type) where
  X_batches : List (List α)
  A_batches : List (List β)
  acc_batches : List (List ℚ)
  events : List (SMCEvent β)
  deriving DecidableEq

/-- The inner batch loop of one step of `sample` (lines 279–298): for each
batch, raise `"X contains NaNs"` if the incoming coordinates contain a NaN,
otherwise apply `mcmc_kernel` and collect the outputs. -/
def runBatches (S : SMCSampler α β) (source_energy target_energy : List α → List ℚ)
    (t dt : ℚ) : List (List α × List β) → Except String (BatchOut α β)
  | [] => .ok ⟨[], [], [], []⟩
  | (X_batch, A_batch) :: rest =>
      if X_batch.any S.isnanP then .error "X contains NaNs"
      else
        let r := S.mcmc_kernel source_energy target_energy t dt X_batch A_batch
        (runBatches S source_energy target_energy t dt rest).map (fun o =>
          ⟨r.1 :: o.X_batches, r.2.1 :: o.A_batches, r.2.2 :: o.acc_batches,
           SMCEvent.kernelCall t dt :: o.events⟩)

/-- The post-concatenation NaN checkpoint of `sample` (lines 320–323):
raise `"X has NaNs"` when the coordinates contain a NaN, otherwise raise
`"A has NaNs"` when the weights contain one. -/
def nan_checkpoint (S : SMCSampler α β) (X : List α) (A : List β) :
    Except String Unit :=
  if X.any S.isnanP then .error "X has NaNs"
  else if A.any S.isnanW then .error "A has NaNs"
  else .ok ()

/-- The global part of one step of `sample` (lines 300–374), acting on the
concatenated batch outputs: mean acceptance rate, optional step-size
adaptation, NaN checkpoint, ESS computation, and the ESS-triggered
mid-run resampling (suppressed on the last step), which resets the weight
vector to ones. -/
def smc_global [Inhabited α] (S : SMCSampler α β) (num_timesteps j : ℕ)
    (s : SMCState α β) (X : List α) (A : List β) (accs : List ℚ) :
    Except String (SMCState α β × List (SMCEvent β)) :=
  let acceptance_rate := listMean accs
  let eps := if S.adaptive_step_size then update_step_size s.eps acceptance_rate else s.eps
  (nan_checkpoint S X A).bind (fun _ =>
    let ESS := S.sampling_efficiency A
    if ESS < S.ess_threshold ∧ ¬(j + 1 = num_timesteps) then
      let r := resample S X A s.rng
      let A' := A.map (fun _ => S.oneW)
      .ok ({ X := r.1.1, A := A', eps := eps,
             particle_ids := indexSel s.particle_ids r.1.2, rng := r.2 },
           [SMCEvent.resampleEvent false A A'])
    else
      .ok ({ X := X, A := A, eps := eps,
             particle_ids := s.particle_ids, rng := s.rng }, []))

/-- One iteration of the driving loop of `sample` (lines 267–374) at loop
index `j` and schedule time `t`: slice the pool into batches, run the
kernel batchwise, then perform the global computations on the
concatenation. -/
def smc_step [Inhabited α] (S : SMCSampler α β)
    (source_energy target_energy : List α → List ℚ) (num_timesteps j : ℕ)
    (t t_previous : ℚ) (s : SMCState α β) :
    Except String (SMCState α β × List (SMCEvent β)) :=
  (runBatches S source_energy target_energy t (t - t_previous)
      ((toBatches S.batch_size s.X).zip (toBatches S.batch_size s.A))).bind (fun o =>
    (smc_global S num_timesteps j s o.X_batches.flatten o.A_batches.flatten
        o.acc_batches.flatten).map (fun p => (p.1, o.events ++ p.2)))

/-- The driving loop of `sample`: iterate `smc_step` over the enumerated
schedule times `timesteps[:-1]`, threading `t_previous` and the state, and
concatenating the event traces. -/
def smc_loop [Inhabited α] (S : SMCSampler α β)
    (source_energy target_energy : List α → List ℚ) (num_timesteps : ℕ) :
    List (ℕ × ℚ) → ℚ → SMCState α β →
      Except String (SMCState α β × List (SMCEvent β))
  | [], _, s => .ok (s, [])
  | (j, t) :: rest, t_previous, s =>
      (smc_step S source_energy target_energy num_timesteps j t t_previous s).bind
        (fun p =>
          (smc_loop S source_energy target_energy num_timesteps rest t p.1).bind
            (fun q => .ok (q.1, p.2 ++ q.2)))

/-- The method `sample(proposal_samples, source_energy, target_energy)`
(lines 227–387).  Returns `none` when the sampler is disabled; otherwise
filters the input pool, initialises weights to ones and lineage ids to
`0 … N-1`, runs the driving loop over `timesteps[:-1]` starting from
`t_previous = 0`, performs the unconditional final resampling (whose
weights are not reset), checks the final shape assertion (which compares
against the pool as rebound by the cutoff filtering at line 235, so it
holds on cutoff-dropping runs too), and returns the resampled particles
paired with the last weight vector, together with the full event trace. -/
def sample [Inhabited α] (S : SMCSampler α β) (proposal_samples : List α)
    (source_energy target_energy : List α → List ℚ) (rng : List ℚ) :
    Except String (Option (List α × List β) × List (SMCEvent β)) :=
  if ¬S.enabled then .ok (none, [])
  else
    let P := init_filter S target_energy proposal_samples
    let A0 := P.map (fun _ => S.oneW)
    let s0 : SMCState α β :=
      { X := P, A := A0, eps := S.langevin_eps,
        particle_ids := List.range P.length, rng := rng }
    (smc_loop S source_energy target_energy S.num_timesteps
        (init_timesteps S.num_timesteps).dropLast.enum 0 s0).bind (fun p =>
      let r := resample S p.1.X p.1.A p.1.rng
      if r.1.1.length = P.length then
        .ok (some (r.1.1, p.1.A),
             p.2 ++ [SMCEvent.resampleEvent true p.1.A p.1.A])
      else .error "shape mismatch")

/-- The specification's description of systematic index selection (§4.3 of
the spec, stated for comparison with the `searchsorted`-based code): given
the softmax-normalised probability vector `w` and the single uniform offset
`u ∈ [0, 1/N)`, for each `k = 0 … N-1` select the first cumulative bin
whose value is at least `u + k/N`. -/
def spec_systematic_selection (w : List ℚ) (u : ℚ) : List ℕ :=
  (List.range w.length).map
    (fun k : ℕ => (cumsum w).findIdx (fun ci => decide (u + (k : ℚ) / (w.length : ℚ) ≤ ci)))

/-- Recogniser for the unconditional terminal resampling event in a trace. -/
def isFinalResample : SMCEvent β → Bool
  | .resampleEvent true _ _ => true
  | _ => false

/-- The batch-size-independent meaning of the inner batch loop when the
kernel acts on each particle independently: fail on a NaN coordinate,
otherwise map the per-particle move over the whole zipped pool. -/
def pointwisePoolSpec (S : SMCSampler α β) (k : ℚ → ℚ → α → β → α × β × ℚ)
    (t dt : ℚ) (X : List α) (A : List β) :
    Except String (List α × List β × List ℚ) :=
  if X.any S.isnanP then .error "X contains NaNs"
  else
    let r := (X.zip A).map (fun p => k t dt p.1 p.2)
    .ok (r.map (fun y => y.1), r.map (fun y => y.2.1), r.map (fun y => y.2.2))

/-- A concrete per-particle move used by witness theorems: keeps the
coordinate, increments the weight, reports acceptance 1. -/
def egKernel : ℚ → ℚ → ℚ → ℚ → ℚ × ℚ × ℚ := fun _ _ x a => (x, a + 1, 1)

/-- A concrete energy function used by witness theorems. -/
def egEnergy : List ℚ → List ℚ := fun l => l.map (fun _ => 0)

/-- A concrete sampler instantiation (`α = β = ℚ`, `expW` the constant
positive function, no NaN values, constant external ESS) used by witness
and counterexample theorems. -/
def egSampler : SMCSampler ℚ ℚ :=
  { batch_size := 2, langevin_eps := 1, num_timesteps := 1, ess_threshold := -1,
    systematic_resampling := true, adaptive_step_size := false, warmup := 1/10,
    enabled := true, input_energy_cutoff := none,
    mcmc_kernel := pointwiseKernel egKernel,
    expW := fun _ => 1, oneW := 1, isnanP := fun _ => false, isnanW := fun _ => false,
    sampling_efficiency := fun _ => 1 }

/-- A variant of `egSampler` with two timesteps and an ESS threshold that
always triggers the mid-run resampling (the constant external ESS value 0
is below the threshold 10), used by witness theorems that need a run
containing an ESS-triggered resampling event. -/
def egSampler2 : SMCSampler ℚ ℚ := { egSampler with
    num_timesteps := 2, ess_threshold := 10, sampling_efficiency := fun _ => 0 }

/-- A variant of `egSampler` whose NaN-detection predicates mark the value
999, used by the NaN-abort witness theorem. -/
def egSamplerNaN : SMCSampler ℚ ℚ := { egSampler with
    isnanP := fun x => decide (x = 999), isnanW := fun w => decide (w = 999) }

/-- A variant of `egSampler` with an input energy cutoff of 1, used by
witness theorems exercising a run in which the INIT filtering drops a
particle. -/
def egSamplerCut : SMCSampler ℚ ℚ := { egSampler with input_energy_cutoff := some 1 }

/-- A variant of `egSampler2` with an input energy cutoff of 1: a run with
both a cutoff-dropped particle and an ESS-triggered mid-run resampling. -/
def egSampler2Cut : SMCSampler ℚ ℚ := { egSampler2 with input_energy_cutoff := some 1 }

/-- The identity target energy (each particle's energy is its coordinate),
used by witness theorems together with the energy cutoff. -/
def egIdEnergy : List ℚ → List ℚ := fun l => l.map (fun v => v)

/-- Decidable equality of `Except` values, so that concrete runs of the
embedded driver can be checked by `decide`. -/
def exceptDecEq {ε γ : Type} [DecidableEq ε] [DecidableEq γ] :
    (a b : Except ε γ) → Decidable (a = b)
  | .error e, .error e' =>
      if h : e = e' then .isTrue (by rw [h])
      else .isFalse (fun hc => h (by injection hc))
  | .error _, .ok _ => .isFalse (fun hc => Except.noConfusion hc)
  | .ok _, .error _ => .isFalse (fun hc => Except.noConfusion hc)
  | .ok v, .ok v' =>
      if h : v = v' then .isTrue (by rw [h])
      else .isFalse (fun hc => h (by injection hc))

instance {ε γ : Type} [DecidableEq ε] [DecidableEq γ] : DecidableEq (Except ε γ) :=
  exceptDecEq

theorem toBatchesGo_eq (b : ℕ) :
    ∀ (f₁ f₂ : ℕ) (l : List γ), l.length ≤ f₁ → l.length ≤ f₂ →
      toBatchesGo b f₁ l = toBatchesGo b f₂ l := by
  intro f₁
  induction f₁ with
  | zero =>
      intro f₂ l hl _
      have : l = [] := List.length_eq_zero.mp (Nat.le_zero.mp hl)
      subst this
      cases f₂ <;> rfl
  | succ f₁ ih =>
      intro f₂ l hl₁ hl₂
      match l with
      | [] => cases f₂ <;> rfl
      | x :: xs =>
          match f₂, hl₂ with
          | f₂ + 1, hl₂ =>
              by_cases hb : b = 0
              · simp [toBatchesGo, hb]
              · have hb1 : 1 ≤ b := Nat.one_le_iff_ne_zero.mpr hb
                have hd₁ : ((x :: xs).drop b).length ≤ f₁ := by
                  simp only [List.length_drop, List.length_cons]
                  simp only [List.length_cons] at hl₁
                  omega
                have hd₂ : ((x :: xs).drop b).length ≤ f₂ := by
                  simp only [List.length_drop, List.length_cons]
                  simp only [List.length_cons] at hl₂
                  omega
                simp only [toBatchesGo, hb, if_false]
                rw [ih f₂ _ hd₁ hd₂]

theorem toBatchesGo_fuel (b f : ℕ) (l : List γ) (hf : l.length ≤ f) :
    toBatchesGo b f l = toBatches b l :=
  toBatchesGo_eq b f l.length l hf (Nat.le_refl _)

theorem toBatches_cons (b : ℕ) (hb : b ≠ 0) (x : γ) (xs : List γ) :
    toBatches b (x :: xs) = ((x :: xs).take b) :: toBatches b ((x :: xs).drop b) := by
  have hb1 : 1 ≤ b := Nat.one_le_iff_ne_zero.mpr hb
  have hd' : ((x :: xs).drop b).length ≤ xs.length := by
    simp only [List.length_drop, List.length_cons]
    omega
  show toBatchesGo b (x :: xs).length (x :: xs) = _
  simp only [List.length_cons, toBatchesGo, hb, if_false]
  rw [toBatchesGo_fuel b xs.length _ hd']

theorem toBatches_flatten_fuel (b : ℕ) (hb : b ≠ 0) :
    ∀ (n : ℕ) (l : List γ), l.length ≤ n → (toBatches b l).flatten = l := by
  intro n
  induction n with
  | zero =>
      intro l hl
      have : l = [] := List.length_eq_zero.mp (Nat.le_zero.mp hl)
      subst this; rfl
  | succ n ih =>
      intro l hl
      match l with
      | [] => rfl
      | x :: xs =>
          rw [toBatches_cons b hb]
          simp only [List.flatten_cons]
          have hb1 : 1 ≤ b := Nat.one_le_iff_ne_zero.mpr hb
          have hle : ((x :: xs).drop b).length ≤ n := by
            simp only [List.length_drop, List.length_cons]
            simp only [List.length_cons] at hl
            omega
          rw [ih _ hle, List.take_append_drop]

theorem toBatches_flatten (b : ℕ) (hb : b ≠ 0) (l : List γ) :
    (toBatches b l).flatten = l :=
  toBatches_flatten_fuel b hb l.length l (Nat.le_refl _)

theorem zip_take_eq (n : ℕ) :
    ∀ (l : List γ) (l' : List δ), (l.zip l').take n = (l.take n).zip (l'.take n) := by
  induction n with
  | zero => intro l l'; simp
  | succ n ih =>
      intro l l'
      match l, l' with
      | [], _ => simp
      | _ :: _, [] => simp
      | a :: l, a' :: l' => simp [List.zip_cons_cons, ih]

theorem zip_drop_eq (n : ℕ) :
    ∀ (l : List γ) (l' : List δ), (l.zip l').drop n = (l.drop n).zip (l'.drop n) := by
  induction n with
  | zero => intro l l'; simp
  | succ n ih =>
      intro l l'
      match l, l' with
      | [], _ => simp
      | _ :: _, [] => simp
      | a :: l, a' :: l' => simp [List.zip_cons_cons, ih]

theorem maskSelect_map_self (q : γ → Bool) :
    ∀ (l : List γ), maskSelect l (l.map q) = l.filter q := by
  intro l
  induction l with
  | nil => rfl
  | cons x xs ih =>
      by_cases hx : q x <;>
        simp [maskSelect, List.filter_cons, hx] at ih ⊢ <;> exact ih

theorem sum_map_div (s : ℚ) :
    ∀ (e : List ℚ), (e.map (fun v => v / s)).sum = e.sum / s := by
  intro e
  induction e with
  | nil => simp
  | cons a e ih => simp [ih, add_div]

theorem cumsum_length : ∀ (l : List ℚ), (cumsum l).length = l.length := by
  intro l
  induction l with
  | nil => rfl
  | cons a l ih => simp [cumsum, ih]

theorem sum_mem_cumsum : ∀ (l : List ℚ), l ≠ [] → l.sum ∈ cumsum l
  | [a], _ => by simp [cumsum]
  | a :: b :: l', _ => by
      have hmem := sum_mem_cumsum (b :: l') (by simp)
      show (a :: b :: l').sum ∈ a :: (cumsum (b :: l')).map (fun v => a + v)
      rw [List.sum_cons]
      exact List.mem_cons_of_mem _ (List.mem_map.mpr ⟨(b :: l').sum, hmem, rfl⟩)

theorem cumsum_nonneg (l : List ℚ) (hl : ∀ x ∈ l, 0 ≤ x) :
    ∀ y ∈ cumsum l, 0 ≤ y := by
  induction l with
  | nil => intro y hy; simp [cumsum] at hy
  | cons a l ih =>
      intro y hy
      have ha : 0 ≤ a := hl a (by simp)
      simp only [cumsum, List.mem_cons, List.mem_map] at hy
      rcases hy with h | ⟨z, hz, rfl⟩
      · exact h ▸ ha
      · have := ih (fun x hx => hl x (by simp [hx])) z hz
        linarith

theorem cumsum_sorted (l : List ℚ) (hl : ∀ x ∈ l, 0 ≤ x) :
    (cumsum l).Pairwise (· ≤ ·) := by
  induction l with
  | nil => simp [cumsum]
  | cons a l ih =>
      simp only [cumsum, List.pairwise_cons]
      constructor
      · intro y hy
        simp only [List.mem_map] at hy
        obtain ⟨z, hz, rfl⟩ := hy
        have := cumsum_nonneg l (fun x hx => hl x (by simp [hx])) z hz
        linarith
      · have hp := ih (fun x hx => hl x (by simp [hx]))
        exact (List.pairwise_map).mpr (hp.imp (by intro x y h; linarith))

theorem countP_lt_length_of_mem (l : List γ) (p : γ → Bool) (a : γ)
    (ha : a ∈ l) (hpa : p a = false) : l.countP p < l.length := by
  refine Nat.lt_of_le_of_ne (List.countP_le_length p) ?_
  intro hcontra
  have := (List.countP_eq_length).mp hcontra a ha
  simp [hpa] at this

theorem sorted_countP_eq_findIdx (v : ℚ) :
    ∀ (c : List ℚ), c.Pairwise (· ≤ ·) →
      c.countP (fun x => decide (x < v)) = c.findIdx (fun x => decide (v ≤ x)) := by
  intro c
  induction c with
  | nil => intro _; rfl
  | cons a c ih =>
      intro hs
      rw [List.pairwise_cons] at hs
      by_cases hva : v ≤ a
      · have h0 : (a :: c).countP (fun x => decide (x < v)) = 0 := by
          refine List.countP_eq_zero.mpr ?_
          intro x hx
          rcases List.mem_cons.mp hx with rfl | hx
          · simp only [decide_eq_true_eq, not_lt]
            exact hva
          · simp only [decide_eq_true_eq, not_lt]
            exact le_trans hva (hs.1 x hx)
        rw [h0, List.findIdx_cons]
        simp [hva]
      · push_neg at hva
        rw [List.countP_cons, List.findIdx_cons]
        have hpa : decide (a < v) = true := by simpa using hva
        have hqa : decide (v ≤ a) = false := by simp; linarith
        simp only [hpa, hqa, if_true, cond_false]
        rw [ih hs.2]

theorem rng_getD_bounds (rng : List ℚ) (hrng : ∀ u ∈ rng, 0 ≤ u ∧ u < 1) (k : ℕ) :
    0 ≤ rng.getD k 0 ∧ rng.getD k 0 < 1 := by
  by_cases h : k < rng.length
  · rw [List.getD_eq_getElem rng 0 h]
    exact hrng _ (List.getElem_mem h)
  · have h0 : rng.getD k 0 = 0 := by
      simp [List.getD_eq_getElem?_getD, List.getElem?_eq_none (by omega : rng.length ≤ k)]
    rw [h0]; norm_num

theorem softmax_length (expW : β → ℚ) (l : List β) :
    (softmax expW l).length = l.length := by
  simp [softmax]

theorem softmax_exp_sum_pos (expW : β → ℚ) (l : List β) (hexp : ∀ w, 0 < expW w)
    (hl : l ≠ []) : 0 < (l.map expW).sum := by
  refine List.sum_pos _ ?_ (by simpa [List.map_eq_nil_iff] using hl)
  intro x hx
  obtain ⟨w, _, rfl⟩ := List.mem_map.mp hx
  exact hexp w

theorem softmax_nonneg (expW : β → ℚ) (l : List β) (hexp : ∀ w, 0 < expW w)
    (hl : l ≠ []) : ∀ y ∈ softmax expW l, 0 ≤ y := by
  intro y hy
  simp only [softmax, List.mem_map] at hy
  obtain ⟨v, hv, rfl⟩ := hy
  obtain ⟨w, _, rfl⟩ := hv
  exact div_nonneg (le_of_lt (hexp w)) (le_of_lt (softmax_exp_sum_pos expW l hexp hl))

theorem softmax_sum (expW : β → ℚ) (l : List β) (hexp : ∀ w, 0 < expW w)
    (hl : l ≠ []) : (softmax expW l).sum = 1 := by
  unfold softmax
  rw [sum_map_div]
  exact div_self (ne_of_gt (softmax_exp_sum_pos expW l hexp hl))

theorem softmax_ne_nil (expW : β → ℚ) (l : List β) (hl : l ≠ []) :
    softmax expW l ≠ [] := by
  intro h
  have := softmax_length expW l
  rw [h] at this
  exact hl (List.length_eq_zero.mp this.symm)

theorem one_mem_cumsum_softmax (expW : β → ℚ) (l : List β) (hexp : ∀ w, 0 < expW w)
    (hl : l ≠ []) : (1 : ℚ) ∈ cumsum (softmax expW l) := by
  have h := sum_mem_cumsum (softmax expW l) (softmax_ne_nil expW l hl)
  rwa [softmax_sum expW l hexp hl] at h

theorem resample_selected [Inhabited α] (S : SMCSampler α β) (x : List α)
    (logw : List β) (rng : List ℚ) :
    (resample S x logw rng).1.1 = indexSel x ((resample S x logw rng).1.2) := by
  unfold resample
  split <;> rfl

theorem resample_idx_length [Inhabited α] (S : SMCSampler α β) (x : List α)
    (logw : List β) (rng : List ℚ) (hlen : logw.length = x.length) :
    ((resample S x logw rng).1.2).length = x.length := by
  unfold resample
  split <;> simp [hlen]

theorem searchsorted_lt_length (c : List ℚ) (v : ℚ) (a : ℚ) (ha : a ∈ c)
    (hva : ¬a < v) : searchsorted c v < c.length :=
  countP_lt_length_of_mem c (fun y => decide (y < v)) a ha (decide_eq_false hva)

theorem inverseCDFIndex_lt_length (c : List ℚ) (u : ℚ) (a : ℚ) (ha : a ∈ c)
    (hua : ¬a ≤ u) : inverseCDFIndex c u < c.length :=
  countP_lt_length_of_mem c (fun y => decide (y ≤ u)) a ha (decide_eq_false hua)

theorem resample_idx_lt [Inhabited α] (S : SMCSampler α β) (x : List α)
    (logw : List β) (rng : List ℚ) (hlen : logw.length = x.length)
    (hx : 0 < x.length) (hexp : ∀ w, 0 < S.expW w)
    (hrng : ∀ u ∈ rng, 0 ≤ u ∧ u < 1) :
    ∀ i ∈ (resample S x logw rng).1.2, i < x.length := by
  have hlne : logw ≠ [] := by
    intro h
    rw [h] at hlen
    simp at hlen
    omega
  have hone := one_mem_cumsum_softmax S.expW logw hexp hlne
  have hclen : (cumsum (softmax S.expW logw)).length = x.length := by
    rw [cumsum_length, softmax_length, hlen]
  unfold resample
  split
  · intro i hi
    simp only [List.mem_map, List.mem_range] at hi
    obtain ⟨k, hk, rfl⟩ := hi
    have hNQ : (0 : ℚ) < (logw.length : ℚ) := by
      have : 0 < logw.length := by omega
      exact_mod_cast this
    have hr := rng_getD_bounds rng hrng 0
    have hq : rng.getD 0 0 / (logw.length : ℚ) + (k : ℚ) / (logw.length : ℚ) < 1 := by
      rw [div_add_div_same]
      refine (div_lt_one hNQ).mpr ?_
      have hkN : (k : ℚ) + 1 ≤ (logw.length : ℚ) := by exact_mod_cast hk
      linarith [hr.1, hr.2]
    have hlt := searchsorted_lt_length (cumsum (softmax S.expW logw))
      (rng.getD 0 0 / (logw.length : ℚ) + (k : ℚ) / (logw.length : ℚ)) 1 hone
      (not_lt.mpr (le_of_lt hq))
    calc searchsorted (cumsum (softmax S.expW logw))
          (rng.getD 0 0 / (logw.length : ℚ) + (k : ℚ) / (logw.length : ℚ))
        < (cumsum (softmax S.expW logw)).length := hlt
      _ = x.length := hclen
  · intro i hi
    simp only [List.mem_map, List.mem_range] at hi
    obtain ⟨k, hk, rfl⟩ := hi
    have hr := rng_getD_bounds rng hrng k
    have hlt := inverseCDFIndex_lt_length (cumsum (softmax S.expW logw))
      (rng.getD k 0) 1 hone (not_le.mpr hr.2)
    calc inverseCDFIndex (cumsum (softmax S.expW logw)) (rng.getD k 0)
        < (cumsum (softmax S.expW logw)).length := hlt
      _ = x.length := hclen

/-- C2: for every particle list `x` of length `N` and index-aligned
log-weight vector `logw` of length `N`, `resample` returns a selected
particle list equal to `x` indexed by the returned index vector, the index
vector has length `N`, and every returned index lies in `[0, N)` — under
both the systematic and the multinomial configuration (the configuration
flag of `S` is arbitrary). -/
theorem claim2_resample_shape [Inhabited α] (S : SMCSampler α β) (x : List α)
    (logw : List β) (rng : List ℚ) (hlen : logw.length = x.length)
    (hx : 0 < x.length) (hexp : ∀ w, 0 < S.expW w)
    (hrng : ∀ u ∈ rng, 0 ≤ u ∧ u < 1) :
    (resample S x logw rng).1.1 = indexSel x ((resample S x logw rng).1.2) ∧
    ((resample S x logw rng).1.2).length = x.length ∧
    ∀ i ∈ (resample S x logw rng).1.2, i < x.length :=
  ⟨resample_selected S x logw rng, resample_idx_length S x logw rng hlen,
   resample_idx_lt S x logw rng hlen hx hexp hrng⟩

/-- Witness for C2 at a concrete input (two particles, uniform log-weights,
one uniform draw). -/
theorem claim2_resample_shape_witness :
    (resample egSampler [5, 7] [0, 0] [1/2]).1.1
        = indexSel [5, 7] ((resample egSampler [5, 7] [0, 0] [1/2]).1.2) ∧
    ((resample egSampler [5, 7] [0, 0] [1/2]).1.2).length = ([5, 7] : List ℚ).length ∧
    ∀ i ∈ (resample egSampler [5, 7] [0, 0] [1/2]).1.2, i < ([5, 7] : List ℚ).length :=
  claim2_resample_shape egSampler [5, 7] [0, 0] [1/2] rfl (by norm_num)
    (fun _ => one_pos)
    (by intro u hu; rcases List.mem_singleton.mp hu with rfl; norm_num)

/-- C3: when systematic resampling is configured, `resample` selects its
indices exactly as the specification describes: softmax-normalise the
log-weights into a probability vector, form its cumulative sum, draw one
uniform offset `u ∈ [0, 1/N)` (the code's `torch.rand(1)/N`), and for each
`k = 0 … N-1` pick the first cumulative bin whose value is at least
`u + k/N` (the `searchsorted` call coincides with that first-bin search on
the sorted cumulative sums). -/
theorem claim3_systematic_refinement [Inhabited α] (S : SMCSampler α β) (x : List α)
    (logw : List β) (rng : List ℚ) (hsys : S.systematic_resampling = true)
    (hN : 0 < logw.length) (hexp : ∀ w, 0 < S.expW w)
    (hrng : ∀ u ∈ rng, 0 ≤ u ∧ u < 1) :
    0 ≤ rng.getD 0 0 / (logw.length : ℚ) ∧
    rng.getD 0 0 / (logw.length : ℚ) < 1 / (logw.length : ℚ) ∧
    (resample S x logw rng).1.2
      = spec_systematic_selection (softmax S.expW logw)
          (rng.getD 0 0 / (logw.length : ℚ)) := by
  have hr := rng_getD_bounds rng hrng 0
  have hr2 := hr.2
  have hNQ : (0 : ℚ) < (logw.length : ℚ) := by exact_mod_cast hN
  have hlne : logw ≠ [] := by
    intro h
    rw [h] at hN
    simp at hN
  have hsorted : (cumsum (softmax S.expW logw)).Pairwise (· ≤ ·) :=
    cumsum_sorted _ (softmax_nonneg S.expW logw hexp hlne)
  refine ⟨div_nonneg hr.1 (le_of_lt hNQ), by gcongr, ?_⟩
  simp only [resample, hsys, if_true]
  unfold spec_systematic_selection
  rw [softmax_length]
  refine List.map_congr_left ?_
  intro k _
  exact sorted_countP_eq_findIdx _ _ hsorted

/-- Witness for C3 at a concrete input (two particles, uniform log-weights,
one uniform draw). -/
theorem claim3_systematic_refinement_witness :
    0 ≤ ([1/2] : List ℚ).getD 0 0 / (([0, 0] : List ℚ).length : ℚ) ∧
    ([1/2] : List ℚ).getD 0 0 / (([0, 0] : List ℚ).length : ℚ)
      < 1 / (([0, 0] : List ℚ).length : ℚ) ∧
    (resample egSampler [5, 7] [0, 0] [1/2]).1.2
      = spec_systematic_selection (softmax egSampler.expW [0, 0])
          (([1/2] : List ℚ).getD 0 0 / (([0, 0] : List ℚ).length : ℚ)) :=
  claim3_systematic_refinement egSampler [5, 7] [0, 0] [1/2] rfl (by norm_num)
    (fun _ => one_pos)
    (by intro u hu; rcases List.mem_singleton.mp hu with rfl; norm_num)

theorem zipWith_interp_zero : ∀ (l l' : List ℚ), l.length = l'.length →
    List.zipWith (fun es et => (1 - (0 : ℚ)) * es + 0 * et) l l' = l := by
  intro l
  induction l with
  | nil => intro l' _; rfl
  | cons a l ih =>
      intro l' hl
      match l' with
      | [] => simp at hl
      | b :: l' =>
          rw [List.zipWith_cons_cons, ih l' (by simpa using hl)]
          congr 1
          ring

theorem zipWith_interp_one : ∀ (l l' : List ℚ), l.length = l'.length →
    List.zipWith (fun es et => (1 - (1 : ℚ)) * es + 1 * et) l l' = l' := by
  intro l
  induction l with
  | nil =>
      intro l' hl
      match l' with
      | [] => rfl
  | cons a l ih =>
      intro l' hl
      match l' with
      | [] => simp at hl
      | b :: l' =>
          rw [List.zipWith_cons_cons, ih l' (by simpa using hl)]
          congr 1
          ring

/-- C6: for every `t` in `[0,1]` and every pool `x` on which both energy
functions return flat vectors of the batch length,
`linear_energy_interpolation` returns `(1-t)·E_source(x) + t·E_target(x)`
entrywise; at `t = 0` this is exactly `E_source(x)` and at `t = 1` exactly
`E_target(x)`. -/
theorem claim6_linear_energy_interpolation (source_energy target_energy : List α → List ℚ)
    (t : ℚ) (x : List α) (hs : (source_energy x).length = x.length)
    (ht : (target_energy x).length = x.length) (h0 : 0 ≤ t) (h1 : t ≤ 1) :
    linear_energy_interpolation source_energy target_energy t x
      = some (List.zipWith (fun es et => (1 - t) * es + t * et)
          (source_energy x) (target_energy x)) ∧
    (t = 0 → linear_energy_interpolation source_energy target_energy t x
      = some (source_energy x)) ∧
    (t = 1 → linear_energy_interpolation source_energy target_energy t x
      = some (target_energy x)) := by
  have hmain : linear_energy_interpolation source_energy target_energy t x
      = some (List.zipWith (fun es et => (1 - t) * es + t * et)
          (source_energy x) (target_energy x)) := by
    simp only [linear_energy_interpolation]
    rw [if_pos ⟨hs, ht⟩]
  refine ⟨hmain, fun h => ?_, fun h => ?_⟩
  · subst h
    rw [hmain]
    exact congrArg some (zipWith_interp_zero _ _ (hs.trans ht.symm))
  · subst h
    rw [hmain]
    exact congrArg some (zipWith_interp_one _ _ (hs.trans ht.symm))

/-- Witness for C6 at a concrete input. -/
theorem claim6_linear_energy_interpolation_witness :
    linear_energy_interpolation egEnergy egEnergy (1/2) [3, 4]
      = some (List.zipWith (fun es et => (1 - (1/2 : ℚ)) * es + (1/2 : ℚ) * et)
          (egEnergy [3, 4]) (egEnergy [3, 4])) ∧
    ((1/2 : ℚ) = 0 → linear_energy_interpolation egEnergy egEnergy (1/2) [3, 4]
      = some (egEnergy [3, 4])) ∧
    ((1/2 : ℚ) = 1 → linear_energy_interpolation egEnergy egEnergy (1/2) [3, 4]
      = some (egEnergy [3, 4])) :=
  claim6_linear_energy_interpolation egEnergy egEnergy (1/2) [3, 4] rfl rfl
    (by norm_num) (by norm_num)

/-- C8: `update_step_size` multiplies the step size by `1.1` when the
observed mean acceptance rate exceeds `0.6`, divides it by `1.1` when the
rate is below `0.55`, and leaves it unchanged for rates in
`[0.55, 0.6]`. -/
theorem claim8_update_step_size (eps r : ℚ) :
    (r > 0.6 → update_step_size eps r = eps * 1.1) ∧
    (r < 0.55 → update_step_size eps r = eps / 1.1) ∧
    (0.55 ≤ r → r ≤ 0.6 → update_step_size eps r = eps) := by
  unfold update_step_size
  refine ⟨fun h => by rw [if_pos h], fun h => ?_, fun h1 h2 => ?_⟩
  · rw [if_neg (by push_neg; linarith), if_pos h]
  · rw [if_neg (by push_neg; linarith), if_neg (by push_neg; linarith)]

/-- Witness for C8 at concrete acceptance rates in each of the three
regimes. -/
theorem claim8_update_step_size_witness :
    ((7/10 : ℚ) > 0.6 → update_step_size 1 (7/10) = 1 * 1.1) ∧
    ((1/2 : ℚ) < 0.55 → update_step_size 1 (1/2) = 1 / 1.1) ∧
    ((0.55 : ℚ) ≤ 23/40 → (23/40 : ℚ) ≤ 0.6 → update_step_size 1 (23/40) = 1) :=
  ⟨(claim8_update_step_size 1 (7/10)).1,
   (claim8_update_step_size 1 (1/2)).2.1,
   (claim8_update_step_size 1 (23/40)).2.2⟩

/-- C9: with an input energy cutoff configured and a scalar-per-particle
target energy, the pool produced by the INIT-phase filtering of `sample`
consists exactly of the input particles whose target energy is strictly
below the cutoff, in their original relative order (it equals the order
preserving `List.filter`). -/
theorem claim9_init_filter (S : SMCSampler α β) (e : α → ℚ) (c : ℚ) (P : List α)
    (hc : S.input_energy_cutoff = some c) :
    init_filter S (fun xs => xs.map e) P = P.filter (fun p => decide (e p < c)) := by
  unfold init_filter
  rw [hc]
  dsimp only
  rw [List.map_map]
  exact maskSelect_map_self _ P

/-- Witness for C9 at a concrete input: cutoff 1, identity energy. -/
theorem claim9_init_filter_witness :
    init_filter { egSampler with input_energy_cutoff := some 1 }
        (fun xs => xs.map (fun v => v)) [0, 2]
      = ([0, 2] : List ℚ).filter (fun p => decide (p < 1)) :=
  claim9_init_filter { egSampler with input_energy_cutoff := some 1 }
    (fun v => v) 1 [0, 2] rfl

theorem except_map_error (f : γ → δ) (e : String) :
    (Except.error e : Except String γ).map f = .error e := rfl

theorem except_map_ok (f : γ → δ) (v : γ) :
    (Except.ok v : Except String γ).map f = .ok (f v) := rfl

theorem except_bind_error (f : γ → Except String δ) (e : String) :
    (Except.error e : Except String γ).bind f = .error e := rfl

theorem except_bind_ok (f : γ → Except String δ) (v : γ) :
    (Except.ok v : Except String γ).bind f = f v := rfl

theorem runBatches_pointwise (S : SMCSampler α β) (se te : List α → List ℚ)
    (k : ℚ → ℚ → α → β → α × β × ℚ) (hk : S.mcmc_kernel = pointwiseKernel k)
    (t dt : ℚ) (b : ℕ) (hb : b ≠ 0) :
    ∀ (n : ℕ) (X : List α) (A : List β), X.length ≤ n → X.length = A.length →
      (runBatches S se te t dt ((toBatches b X).zip (toBatches b A))).map
          (fun o => (o.X_batches.flatten, o.A_batches.flatten, o.acc_batches.flatten))
        = pointwisePoolSpec S k t dt X A := by
  intro n
  induction n with
  | zero =>
      intro X A hXn hlen
      have hX : X = [] := List.length_eq_zero.mp (Nat.le_zero.mp hXn)
      subst hX
      have hA : A = [] := List.length_eq_zero.mp (by omega)
      subst hA
      rfl
  | succ n ih =>
      intro X A hXn hlen
      match X, A with
      | [], A =>
          have hA : A = [] := List.length_eq_zero.mp (by simpa using hlen.symm)
          subst hA
          rfl
      | x :: X', [] => simp at hlen
      | x :: X', a :: A' =>
          rw [toBatches_cons b hb, toBatches_cons b hb, List.zip_cons_cons]
          by_cases hnan : ((x :: X').take b).any S.isnanP
          · have hXany : (x :: X').any S.isnanP = true := by
              conv_lhs => rw [← List.take_append_drop b (x :: X')]
              rw [List.any_append, hnan]
              rfl
            simp only [runBatches, hnan, if_true, pointwisePoolSpec, hXany,
              except_map_error]
          · have hdlen : ((x :: X').drop b).length ≤ n := by
              have hb1 : 1 ≤ b := Nat.one_le_iff_ne_zero.mpr hb
              simp only [List.length_drop, List.length_cons]
              simp only [List.length_cons] at hXn
              omega
            have hdeq : ((x :: X').drop b).length = ((a :: A').drop b).length := by
              simp only [List.length_drop, hlen]
            have hrec := ih ((x :: X').drop b) ((a :: A').drop b) hdlen hdeq
            simp only [runBatches, hnan, if_false]
            cases hrun : runBatches S se te t dt
                ((toBatches b ((x :: X').drop b)).zip (toBatches b ((a :: A').drop b))) with
            | error e =>
                rw [hrun, except_map_error] at hrec
                have hdany : ((x :: X').drop b).any S.isnanP = true ∧
                    e = "X contains NaNs" := by
                  unfold pointwisePoolSpec at hrec
                  by_cases hc : ((x :: X').drop b).any S.isnanP
                  · rw [if_pos hc] at hrec
                    exact ⟨hc, (Except.error.injEq _ _).mp hrec⟩
                  · rw [if_neg hc] at hrec
                    exact absurd hrec (by simp)
                have hXany : (x :: X').any S.isnanP = true := by
                  conv_lhs => rw [← List.take_append_drop b (x :: X')]
                  rw [List.any_append, hdany.1]
                  simp
                simp only [Bool.false_eq_true, if_false, except_map_error,
                  pointwisePoolSpec, hXany, if_true, hdany.2]
            | ok o =>
                rw [hrun, except_map_ok] at hrec
                have hdany : ((x :: X').drop b).any S.isnanP = false := by
                  unfold pointwisePoolSpec at hrec
                  by_cases hc : ((x :: X').drop b).any S.isnanP
                  · rw [if_pos hc] at hrec
                    exact absurd hrec (by simp)
                  · exact eq_false_of_ne_true hc
                have hXany : (x :: X').any S.isnanP = false := by
                  conv_lhs => rw [← List.take_append_drop b (x :: X')]
                  rw [List.any_append]
                  rw [eq_false_of_ne_true hnan, hdany]
                  rfl
                unfold pointwisePoolSpec at hrec
                rw [if_neg (by rw [hdany]; simp)] at hrec
                have hjoins := (Except.ok.injEq _ _).mp hrec
                simp only [Bool.false_eq_true, if_false, except_map_ok,
                  pointwisePoolSpec, hXany, Except.ok.injEq, Prod.mk.injEq]
                have hzip_take : ((x :: X').take b).zip ((a :: A').take b)
                    = ((x :: X').zip (a :: A')).take b := (zip_take_eq b _ _).symm
                have hzip_drop : ((x :: X').drop b).zip ((a :: A').drop b)
                    = ((x :: X').zip (a :: A')).drop b := (zip_drop_eq b _ _).symm
                rw [hk]
                simp only [pointwiseKernel, BatchOut.mk.injEq]
                have h1 : (o.X_batches.flatten : List α)
                    = (((x :: X').zip (a :: A')).drop b).map (fun p => (k t dt p.1 p.2).1) := by
                  have := congrArg (fun z => z.1) hjoins
                  simpa [hzip_drop] using this
                have h2 : (o.A_batches.flatten : List β)
                    = (((x :: X').zip (a :: A')).drop b).map (fun p => (k t dt p.1 p.2).2.1) := by
                  have := congrArg (fun z => z.2.1) hjoins
                  simpa [hzip_drop] using this
                have h3 : (o.acc_batches.flatten : List ℚ)
                    = (((x :: X').zip (a :: A')).drop b).map (fun p => (k t dt p.1 p.2).2.2) := by
                  have := congrArg (fun z => z.2.2) hjoins
                  simpa [hzip_drop] using this
                simp only [List.flatten_cons, h1, h2, h3, hzip_take]
                refine ⟨?_, ?_, ?_⟩ <;>
                  · simp only [List.map_map, Function.comp_def]
                    rw [← List.map_append, List.take_append_drop]

theorem smc_step_map_fst [Inhabited α] (S : SMCSampler α β)
    (se te : List α → List ℚ) (k : ℚ → ℚ → α → β → α × β × ℚ)
    (hk : S.mcmc_kernel = pointwiseKernel k) (hb : S.batch_size ≠ 0)
    (T j : ℕ) (t tp : ℚ) (s : SMCState α β) (hlen : s.X.length = s.A.length) :
    (smc_step S se te T j t tp s).map Prod.fst
      = (pointwisePoolSpec S k t (t - tp) s.X s.A).bind
          (fun r => (smc_global S T j s r.1 r.2.1 r.2.2).map Prod.fst) := by
  have hrb := runBatches_pointwise S se te k hk t (t - tp) S.batch_size hb
    s.X.length s.X s.A (Nat.le_refl _) hlen
  unfold smc_step
  cases hrun : runBatches S se te t (t - tp)
      ((toBatches S.batch_size s.X).zip (toBatches S.batch_size s.A)) with
  | error e =>
      rw [hrun, except_map_error] at hrb
      rw [← hrb, except_bind_error, except_bind_error, except_map_error]
  | ok o =>
      rw [hrun, except_map_ok] at hrb
      rw [← hrb, except_bind_ok, except_bind_ok]
      cases hsg : smc_global S T j s o.X_batches.flatten o.A_batches.flatten
          o.acc_batches.flatten with
      | error e => rfl
      | ok p => rfl

theorem resample_fst_length [Inhabited α] (S : SMCSampler α β) (x : List α)
    (logw : List β) (rng : List ℚ) (hlen : logw.length = x.length) :
    ((resample S x logw rng).1.1).length = x.length := by
  rw [resample_selected]
  unfold indexSel
  rw [List.length_map, resample_idx_length S x logw rng hlen]

theorem smc_global_ok_cases [Inhabited α] (S : SMCSampler α β) (T j : ℕ)
    (s : SMCState α β) (X : List α) (A : List β) (accs : List ℚ)
    (s' : SMCState α β) (evs : List (SMCEvent β))
    (h : smc_global S T j s X A accs = .ok (s', evs)) :
    X.any S.isnanP = false ∧ A.any S.isnanW = false ∧
    ((evs = [] ∧ s'.X = X ∧ s'.A = A ∧ s'.rng = s.rng ∧
        s'.particle_ids = s.particle_ids) ∨
     (evs = [SMCEvent.resampleEvent false A (A.map (fun _ => S.oneW))] ∧
      s'.X = (resample S X A s.rng).1.1 ∧ s'.A = A.map (fun _ => S.oneW) ∧
      s'.rng = (resample S X A s.rng).2 ∧
      s'.particle_ids = indexSel s.particle_ids (resample S X A s.rng).1.2)) := by
  simp only [smc_global, nan_checkpoint] at h
  by_cases h1 : X.any S.isnanP
  · rw [if_pos h1, except_bind_error] at h
    exact absurd h (by simp)
  · rw [if_neg h1] at h
    by_cases h2 : A.any S.isnanW
    · rw [if_pos h2, except_bind_error] at h
      exact absurd h (by simp)
    · rw [if_neg h2, except_bind_ok] at h
      refine ⟨eq_false_of_ne_true h1, eq_false_of_ne_true h2, ?_⟩
      by_cases h3 : S.sampling_efficiency A < S.ess_threshold ∧ ¬(j + 1 = T)
      · rw [if_pos h3] at h
        injection h with hpair
        injection hpair with hstate hevs
        right
        subst hstate
        exact ⟨hevs.symm, rfl, rfl, rfl, rfl⟩
      · rw [if_neg h3] at h
        injection h with hpair
        injection hpair with hstate hevs
        left
        subst hstate
        exact ⟨hevs.symm, rfl, rfl, rfl, rfl⟩

theorem smc_global_error_cases [Inhabited α] (S : SMCSampler α β) (T j : ℕ)
    (s : SMCState α β) (X : List α) (A : List β) (accs : List ℚ) :
    (X.any S.isnanP = true → smc_global S T j s X A accs = .error "X has NaNs") ∧
    (X.any S.isnanP = false → A.any S.isnanW = true →
      smc_global S T j s X A accs = .error "A has NaNs") := by
  constructor
  · intro h1
    simp only [smc_global, nan_checkpoint, h1, if_true, except_bind_error]
  · intro h1 h2
    simp only [smc_global, nan_checkpoint, h1, Bool.false_eq_true, if_false, h2,
      if_true, except_bind_error]

theorem runBatches_ok_events (S : SMCSampler α β) (se te : List α → List ℚ)
    (t dt : ℚ) :
    ∀ (bs : List (List α × List β)) (o : BatchOut α β),
      runBatches S se te t dt bs = .ok o →
      o.events = List.replicate bs.length (SMCEvent.kernelCall t dt) := by
  intro bs
  induction bs with
  | nil =>
      intro o h
      injection h with h
      rw [← h]
      rfl
  | cons batch rest ih =>
      intro o h
      match batch with
      | (X_batch, A_batch) =>
          simp only [runBatches] at h
          by_cases hnan : X_batch.any S.isnanP
          · rw [if_pos hnan] at h
            exact absurd h (by simp)
          · rw [if_neg hnan] at h
            cases hrun : runBatches S se te t dt rest with
            | error e => rw [hrun, except_map_error] at h; exact absurd h (by simp)
            | ok o' =>
                rw [hrun, except_map_ok] at h
                injection h with h
                rw [← h]
                simp only [List.length_cons, List.replicate_succ]
                rw [ih o' hrun]

theorem pointwisePoolSpec_ok_inv (S : SMCSampler α β) (k : ℚ → ℚ → α → β → α × β × ℚ)
    (t dt : ℚ) (X : List α) (A : List β) (r : List α × List β × List ℚ)
    (h : pointwisePoolSpec S k t dt X A = .ok r) :
    X.any S.isnanP = false ∧
    r.1 = ((X.zip A).map (fun p => k t dt p.1 p.2)).map (fun y => y.1) ∧
    r.2.1 = ((X.zip A).map (fun p => k t dt p.1 p.2)).map (fun y => y.2.1) ∧
    r.2.2 = ((X.zip A).map (fun p => k t dt p.1 p.2)).map (fun y => y.2.2) := by
  unfold pointwisePoolSpec at h
  by_cases h1 : X.any S.isnanP
  · rw [if_pos h1] at h
    exact absurd h (by simp)
  · rw [if_neg h1] at h
    injection h with h
    exact ⟨eq_false_of_ne_true h1, congrArg (fun z => z.1) h.symm,
      congrArg (fun z => z.2.1) h.symm, congrArg (fun z => z.2.2) h.symm⟩

theorem smc_step_ok_inv [Inhabited α] (S : SMCSampler α β)
    (se te : List α → List ℚ) (k : ℚ → ℚ → α → β → α × β × ℚ)
    (hk : S.mcmc_kernel = pointwiseKernel k) (hb : S.batch_size ≠ 0)
    (T j : ℕ) (t tp : ℚ) (s s' : SMCState α β) (evs : List (SMCEvent β))
    (hlen : s.X.length = s.A.length)
    (h : smc_step S se te T j t tp s = .ok (s', evs)) :
    s'.X.length = s.X.length ∧ s'.A.length = s.X.length := by
  have hmf := smc_step_map_fst S se te k hk hb T j t tp s hlen
  rw [h, except_map_ok] at hmf
  cases hps : pointwisePoolSpec S k t (t - tp) s.X s.A with
  | error e =>
      rw [hps, except_bind_error] at hmf
      exact absurd hmf (by simp)
  | ok r =>
      rw [hps, except_bind_ok] at hmf
      obtain ⟨hnan, h1, h2, h3⟩ := pointwisePoolSpec_ok_inv S k t (t - tp) s.X s.A r hps
      have hziplen : (s.X.zip s.A).length = s.X.length := by
        rw [List.length_zip, hlen, Nat.min_self]
      have hXlen : r.1.length = s.X.length := by
        rw [h1, List.length_map, List.length_map, hziplen]
      have hAlen : r.2.1.length = s.X.length := by
        rw [h2, List.length_map, List.length_map, hziplen]
      cases hsg : smc_global S T j s r.1 r.2.1 r.2.2 with
      | error e =>
          rw [hsg, except_map_error] at hmf
          exact absurd hmf (by simp)
      | ok p =>
          rw [hsg, except_map_ok] at hmf
          have hs' : s' = p.1 := (Except.ok.injEq _ _).mp hmf
          obtain ⟨_, _, hcases⟩ :=
            smc_global_ok_cases S T j s r.1 r.2.1 r.2.2 p.1 p.2 (by rw [hsg])
          rcases hcases with ⟨_, hX, hA, _, _⟩ | ⟨_, hX, hA, _, _⟩
          · rw [hs', hX, hA]
            exact ⟨hXlen, hAlen⟩
          · rw [hs', hX, hA]
            constructor
            · rw [resample_fst_length S r.1 r.2.1 s.rng (hAlen.trans hXlen.symm)]
              exact hXlen
            · rw [List.length_map]
              exact hAlen

theorem smc_step_ok_events [Inhabited α] (S : SMCSampler α β)
    (se te : List α → List ℚ) (T j : ℕ) (t tp : ℚ) (s s' : SMCState α β)
    (evs : List (SMCEvent β))
    (h : smc_step S se te T j t tp s = .ok (s', evs)) :
    ∃ (nb : ℕ) (tail : List (SMCEvent β)),
      evs = List.replicate nb (SMCEvent.kernelCall t (t - tp)) ++ tail ∧
      nb = ((toBatches S.batch_size s.X).zip (toBatches S.batch_size s.A)).length ∧
      (tail = [] ∨
        ∃ wB, tail = [SMCEvent.resampleEvent false wB (wB.map (fun _ => S.oneW))]) := by
  unfold smc_step at h
  cases hrun : runBatches S se te t (t - tp)
      ((toBatches S.batch_size s.X).zip (toBatches S.batch_size s.A)) with
  | error e => rw [hrun, except_bind_error] at h; exact absurd h (by simp)
  | ok o =>
      rw [hrun, except_bind_ok] at h
      cases hsg : smc_global S T j s o.X_batches.flatten o.A_batches.flatten
          o.acc_batches.flatten with
      | error e => rw [hsg, except_map_error] at h; exact absurd h (by simp)
      | ok p =>
          rw [hsg, except_map_ok] at h
          injection h with hpair
          injection hpair with _ hevs
          obtain ⟨_, _, hcases⟩ :=
            smc_global_ok_cases S T j s o.X_batches.flatten o.A_batches.flatten
              o.acc_batches.flatten p.1 p.2 (by rw [hsg])
          refine ⟨((toBatches S.batch_size s.X).zip (toBatches S.batch_size s.A)).length,
            p.2, ?_, rfl, ?_⟩
          · rw [← hevs, runBatches_ok_events S se te t (t - tp) _ o hrun]
          · rcases hcases with ⟨htail, _⟩ | ⟨htail, _⟩
            · exact Or.inl htail
            · exact Or.inr ⟨o.A_batches.flatten, htail⟩

theorem smc_loop_cons_error [Inhabited α] (S : SMCSampler α β)
    (se te : List α → List ℚ) (T j : ℕ) (t tp : ℚ) (rest : List (ℕ × ℚ))
    (s : SMCState α β) (e : String)
    (hstep : smc_step S se te T j t tp s = .error e) :
    smc_loop S se te T ((j, t) :: rest) tp s = .error e := by
  simp only [smc_loop, hstep, except_bind_error]

theorem smc_loop_cons_ok [Inhabited α] (S : SMCSampler α β)
    (se te : List α → List ℚ) (T j : ℕ) (t tp : ℚ) (rest : List (ℕ × ℚ))
    (s : SMCState α β) (p : SMCState α β × List (SMCEvent β))
    (hstep : smc_step S se te T j t tp s = .ok p) :
    smc_loop S se te T ((j, t) :: rest) tp s
      = (smc_loop S se te T rest t p.1).bind
          (fun q => .ok (q.1, p.2 ++ q.2)) := by
  simp only [smc_loop, hstep, except_bind_ok]

theorem smc_loop_map_fst [Inhabited α] (S : SMCSampler α β) (b' : ℕ)
    (se te : List α → List ℚ) (k : ℚ → ℚ → α → β → α × β × ℚ)
    (hk : S.mcmc_kernel = pointwiseKernel k) (hb : S.batch_size ≠ 0)
    (hb' : b' ≠ 0) (T : ℕ) :
    ∀ (ts : List (ℕ × ℚ)) (tp : ℚ) (s : SMCState α β),
      s.X.length = s.A.length →
      (smc_loop S se te T ts tp s).map Prod.fst
        = (smc_loop { S with batch_size := b' } se te T ts tp s).map Prod.fst := by
  intro ts
  induction ts with
  | nil => intro tp s _; rfl
  | cons jt rest ih =>
      intro tp s hlen
      match jt with
      | (j, t) =>
          have hstep := smc_step_map_fst S se te k hk hb T j t tp s hlen
          have hstep' := smc_step_map_fst { S with batch_size := b' } se te k hk hb' T j t tp s hlen
          have hspec : (pointwisePoolSpec { S with batch_size := b' } k t (t - tp) s.X s.A).bind
              (fun r => (smc_global { S with batch_size := b' } T j s r.1 r.2.1 r.2.2).map Prod.fst)
            = (pointwisePoolSpec S k t (t - tp) s.X s.A).bind
              (fun r => (smc_global S T j s r.1 r.2.1 r.2.2).map Prod.fst) := rfl
          rw [hspec] at hstep'
          have hsteps := hstep.trans hstep'.symm
          cases hst : smc_step S se te T j t tp s with
          | error e =>
              cases hst' : smc_step { S with batch_size := b' } se te T j t tp s with
              | error e' =>
                  rw [hst, hst'] at hsteps
                  have he : e = e' := by
                    simpa [Except.map] using hsteps
                  rw [smc_loop_cons_error S se te T j t tp rest s e hst,
                    smc_loop_cons_error { S with batch_size := b' } se te T j t tp rest s e' hst', he]
              | ok p' =>
                  rw [hst, hst'] at hsteps
                  exact absurd hsteps (by simp [Except.map])
          | ok p =>
              cases hst' : smc_step { S with batch_size := b' } se te T j t tp s with
              | error e' =>
                  rw [hst, hst'] at hsteps
                  exact absurd hsteps (by simp [Except.map])
              | ok p' =>
                  rw [hst, hst'] at hsteps
                  have hp : p.1 = p'.1 := by
                    simpa [Except.map] using hsteps
                  rw [smc_loop_cons_ok S se te T j t tp rest s p hst,
                    smc_loop_cons_ok { S with batch_size := b' } se te T j t tp rest s p' hst']
                  rw [← hp]
                  have hinv := smc_step_ok_inv S se te k hk hb T j t tp s p.1 p.2 hlen
                    (by rw [hst])
                  have hrec := ih t p.1 (hinv.1.trans hinv.2.symm)
                  cases hl : smc_loop S se te T rest t p.1 with
                  | error e =>
                      rw [hl] at hrec
                      cases hl' : smc_loop { S with batch_size := b' } se te T rest t p.1 with
                      | error e' =>
                          rw [hl'] at hrec
                          have he : e = e' := by simpa [Except.map] using hrec
                          rw [except_bind_error, except_bind_error, he]
                      | ok q' =>
                          rw [hl'] at hrec
                          exact absurd hrec (by simp [Except.map])
                  | ok q =>
                      rw [hl] at hrec
                      cases hl' : smc_loop { S with batch_size := b' } se te T rest t p.1 with
                      | error e' =>
                          rw [hl'] at hrec
                          exact absurd hrec (by simp [Except.map])
                      | ok q' =>
                          rw [hl'] at hrec
                          have hq : q.1 = q'.1 := by simpa [Except.map] using hrec
                          rw [except_bind_ok, except_bind_ok]
                          simp [Except.map, hq]

theorem sample_unfold_enabled [Inhabited α] (S : SMCSampler α β) (P : List α)
    (se te : List α → List ℚ) (rng : List ℚ) (hen : S.enabled = true) :
    sample S P se te rng
      = (smc_loop S se te S.num_timesteps
          (init_timesteps S.num_timesteps).dropLast.enum 0
          ⟨init_filter S te P, (init_filter S te P).map (fun _ => S.oneW),
           S.langevin_eps, List.range (init_filter S te P).length, rng⟩).bind
          (fun p =>
            if ((resample S p.1.X p.1.A p.1.rng).1.1).length
                = (init_filter S te P).length then
              .ok (some ((resample S p.1.X p.1.A p.1.rng).1.1, p.1.A),
                   p.2 ++ [SMCEvent.resampleEvent true p.1.A p.1.A])
            else .error "shape mismatch") := by
  unfold sample
  rw [if_neg (not_not_intro hen)]

theorem sample_map_fst_batch [Inhabited α] (S : SMCSampler α β) (b' : ℕ)
    (k : ℚ → ℚ → α → β → α × β × ℚ) (hk : S.mcmc_kernel = pointwiseKernel k)
    (hb : S.batch_size ≠ 0) (hb' : b' ≠ 0) (P : List α)
    (se te : List α → List ℚ) (rng : List ℚ) :
    (sample S P se te rng).map Prod.fst
      = (sample { S with batch_size := b' } P se te rng).map Prod.fst := by
  by_cases hen : S.enabled
  · rw [sample_unfold_enabled S P se te rng hen,
      sample_unfold_enabled { S with batch_size := b' } P se te rng hen]
    show ((smc_loop S se te S.num_timesteps
            (init_timesteps S.num_timesteps).dropLast.enum 0
            ⟨init_filter S te P, (init_filter S te P).map (fun _ => S.oneW),
             S.langevin_eps, List.range (init_filter S te P).length, rng⟩).bind
            (fun p =>
              if ((resample S p.1.X p.1.A p.1.rng).1.1).length
                  = (init_filter S te P).length then
                Except.ok (some ((resample S p.1.X p.1.A p.1.rng).1.1, p.1.A),
                     p.2 ++ [SMCEvent.resampleEvent true p.1.A p.1.A])
              else Except.error "shape mismatch")).map Prod.fst
      = ((smc_loop { S with batch_size := b' } se te S.num_timesteps
            (init_timesteps S.num_timesteps).dropLast.enum 0
            ⟨init_filter S te P, (init_filter S te P).map (fun _ => S.oneW),
             S.langevin_eps, List.range (init_filter S te P).length, rng⟩).bind
            (fun p =>
              if ((resample S p.1.X p.1.A p.1.rng).1.1).length
                  = (init_filter S te P).length then
                Except.ok (some ((resample S p.1.X p.1.A p.1.rng).1.1, p.1.A),
                     p.2 ++ [SMCEvent.resampleEvent true p.1.A p.1.A])
              else Except.error "shape mismatch")).map Prod.fst
    have hloop := smc_loop_map_fst S b' se te k hk hb hb' S.num_timesteps
      (init_timesteps S.num_timesteps).dropLast.enum 0
      ⟨init_filter S te P, (init_filter S te P).map (fun _ => S.oneW),
       S.langevin_eps, List.range (init_filter S te P).length, rng⟩
      (by simp)
    cases hl : smc_loop S se te S.num_timesteps
        (init_timesteps S.num_timesteps).dropLast.enum 0
        ⟨init_filter S te P, (init_filter S te P).map (fun _ => S.oneW),
         S.langevin_eps, List.range (init_filter S te P).length, rng⟩ with
    | error e =>
        rw [hl] at hloop
        cases hl' : smc_loop { S with batch_size := b' } se te S.num_timesteps
            (init_timesteps S.num_timesteps).dropLast.enum 0
            ⟨init_filter S te P, (init_filter S te P).map (fun _ => S.oneW),
             S.langevin_eps, List.range (init_filter S te P).length, rng⟩ with
        | error e' =>
            rw [hl'] at hloop
            have he : e = e' := by simpa [Except.map] using hloop
            rw [except_bind_error, except_bind_error, he]
        | ok q' =>
            rw [hl'] at hloop
            exact absurd hloop (by simp [Except.map])
    | ok p =>
        rw [hl] at hloop
        cases hl' : smc_loop { S with batch_size := b' } se te S.num_timesteps
            (init_timesteps S.num_timesteps).dropLast.enum 0
            ⟨init_filter S te P, (init_filter S te P).map (fun _ => S.oneW),
             S.langevin_eps, List.range (init_filter S te P).length, rng⟩ with
        | error e' =>
            rw [hl'] at hloop
            exact absurd hloop (by simp [Except.map])
        | ok p' =>
            rw [hl'] at hloop
            have hp : p.1 = p'.1 := by simpa [Except.map] using hloop
            rw [except_bind_ok, except_bind_ok, ← hp]
            by_cases hc : ((resample S p.1.X p.1.A p.1.rng).1.1).length = (init_filter S te P).length
            · rw [if_pos hc, if_pos hc]
              rfl
            · rw [if_neg hc, if_neg hc]
  · unfold sample
    rw [if_pos hen, if_pos (show ¬({ S with batch_size := b' } :
        SMCSampler α β).enabled = true from hen)]

/-- C1: with a deterministic local-move kernel that acts on each particle
independently, and the same stream of uniform draws feeding the resampler,
running `sample` with batch size equal to the pool size (a single batch)
and with batch size equal to a quarter of the pool size (several batches)
produces the same result — in particular identical final particles and
identical final weights (the event traces differ only in how many kernel
invocations each step is split into, so the comparison projects them
away). -/
theorem claim1_batching_invariance [Inhabited α] (S : SMCSampler α β)
    (k : ℚ → ℚ → α → β → α × β × ℚ) (hk : S.mcmc_kernel = pointwiseKernel k)
    (P : List α) (se te : List α → List ℚ) (rng : List ℚ)
    (hN : 4 ≤ P.length) :
    (sample { S with batch_size := P.length } P se te rng).map Prod.fst
      = (sample { S with batch_size := P.length / 4 } P se te rng).map Prod.fst := by
  have h1 := sample_map_fst_batch { S with batch_size := P.length } (P.length / 4)
    k hk (by show P.length ≠ 0; omega) (by omega) P se te rng
  exact h1

/-- Witness for C1: a pool of four particles, batch size 4 versus 1. -/
theorem claim1_batching_invariance_witness :
    (sample { egSampler with batch_size := ([0, 1, 2, 3] : List ℚ).length }
        [0, 1, 2, 3] egEnergy egEnergy [0, 0, 0, 0]).map Prod.fst
      = (sample { egSampler with batch_size := ([0, 1, 2, 3] : List ℚ).length / 4 }
          [0, 1, 2, 3] egEnergy egEnergy [0, 0, 0, 0]).map Prod.fst :=
  claim1_batching_invariance egSampler egKernel rfl [0, 1, 2, 3] egEnergy egEnergy
    [0, 0, 0, 0] (by norm_num)

theorem smc_loop_events_shape [Inhabited α] (S : SMCSampler α β)
    (se te : List α → List ℚ) (T : ℕ) :
    ∀ (ts : List (ℕ × ℚ)) (tp : ℚ) (s s2 : SMCState α β) (evs : List (SMCEvent β)),
      smc_loop S se te T ts tp s = .ok (s2, evs) →
      ∀ e ∈ evs, (∃ p ∈ ts, ∃ dt', e = SMCEvent.kernelCall p.2 dt') ∨
        ∃ wB, e = SMCEvent.resampleEvent false wB (wB.map (fun _ => S.oneW)) := by
  intro ts
  induction ts with
  | nil =>
      intro tp s s2 evs h e he
      simp only [smc_loop] at h
      injection h with hpair
      injection hpair with _ hevs
      rw [← hevs] at he
      exact absurd he (List.not_mem_nil e)
  | cons jt rest ih =>
      intro tp s s2 evs h e he
      match jt with
      | (j, t) =>
          cases hstep : smc_step S se te T j t tp s with
          | error e' =>
              rw [smc_loop_cons_error S se te T j t tp rest s e' hstep] at h
              exact absurd h (by simp)
          | ok p =>
              rw [smc_loop_cons_ok S se te T j t tp rest s p hstep] at h
              cases hl : smc_loop S se te T rest t p.1 with
              | error e' => rw [hl, except_bind_error] at h; exact absurd h (by simp)
              | ok q =>
                  rw [hl, except_bind_ok] at h
                  injection h with hpair
                  injection hpair with _ hevs
                  rw [← hevs] at he
                  rcases List.mem_append.mp he with hmem | hmem
                  · obtain ⟨nb, tail, hsplit, _, htail⟩ :=
                      smc_step_ok_events S se te T j t tp s p.1 p.2 (by rw [hstep])
                    rw [hsplit] at hmem
                    rcases List.mem_append.mp hmem with hrep | htl
                    · left
                      exact ⟨(j, t), List.mem_cons_self _ _, t - tp,
                        (List.eq_of_mem_replicate hrep)⟩
                    · rcases htail with rfl | ⟨wB, rfl⟩
                      · exact absurd htl (List.not_mem_nil e)
                      · right
                        rcases List.mem_singleton.mp htl with rfl
                        exact ⟨wB, rfl⟩
                  · rcases ih t p.1 q.1 q.2 (by rw [hl]) e hmem with ⟨pp, hpp, hdt⟩ | hres
                    · exact Or.inl ⟨pp, List.mem_cons_of_mem _ hpp, hdt⟩
                    · exact Or.inr hres

/-- C4: whenever `sample` completes and returns a particle/weight pair, the
run performed exactly one resampling after the last scheduled step (the
trace contains exactly one terminal resampling event), the returned
particles are the output of that resampling applied to the loop-final
state, and the returned weight vector is the un-reset weight vector of the
last step — the terminal resampling records the same weights before and
after, i.e. weights are not reset there.  The ESS threshold of `S` is
arbitrary. -/
theorem claim4_final_resample [Inhabited α] (S : SMCSampler α β) (P : List α)
    (se te : List α → List ℚ) (rng : List ℚ) (Xf : List α) (Wf : List β)
    (tr : List (SMCEvent β))
    (h : sample S P se te rng = .ok (some (Xf, Wf), tr)) :
    ∃ (s : SMCState α β) (evs : List (SMCEvent β)),
      smc_loop S se te S.num_timesteps
          (init_timesteps S.num_timesteps).dropLast.enum 0
          ⟨init_filter S te P, (init_filter S te P).map (fun _ => S.oneW),
           S.langevin_eps, List.range (init_filter S te P).length, rng⟩
        = .ok (s, evs) ∧
      Xf = (resample S s.X s.A s.rng).1.1 ∧ Wf = s.A ∧
      tr = evs ++ [SMCEvent.resampleEvent true s.A s.A] ∧
      tr.filter (fun e => isFinalResample e)
        = [SMCEvent.resampleEvent true s.A s.A] := by
  by_cases hen : S.enabled
  · rw [sample_unfold_enabled S P se te rng hen] at h
    cases hl : smc_loop S se te S.num_timesteps
        (init_timesteps S.num_timesteps).dropLast.enum 0
        ⟨init_filter S te P, (init_filter S te P).map (fun _ => S.oneW),
         S.langevin_eps, List.range (init_filter S te P).length, rng⟩ with
    | error e => rw [hl, except_bind_error] at h; exact absurd h (by simp)
    | ok p =>
        rw [hl, except_bind_ok] at h
        by_cases hc : ((resample S p.1.X p.1.A p.1.rng).1.1).length = (init_filter S te P).length
        · rw [if_pos hc] at h
          injection h with hpair
          injection hpair with hout hevs
          injection hout with hout
          injection hout with hX hW
          refine ⟨p.1, p.2, rfl, hX.symm, hW.symm, hevs.symm, ?_⟩
          rw [← hevs, List.filter_append]
          have hnil : p.2.filter (fun e => isFinalResample e) = [] := by
            refine List.filter_eq_nil_iff.mpr ?_
            intro e he
            rcases smc_loop_events_shape S se te S.num_timesteps _ 0 _ p.1 p.2
                (by rw [hl]) e he with ⟨pp, _, dt', rfl⟩ | ⟨wB, rfl⟩
            · simp [isFinalResample]
            · simp [isFinalResample]
          rw [hnil]
          rfl
        · rw [if_neg hc] at h
          exact absurd h (by simp)
  · unfold sample at h
    rw [if_pos hen] at h
    injection h with hpair
    injection hpair with hout _
    exact absurd hout (by simp)

/-- Witness for C4: a complete concrete run of `sample` in which the
energy cutoff drops one of the two input particles at INIT (matching the
code, where the final shape assertion compares against the pool rebound by
the filtering), so the claim covers cutoff-dropping runs too. -/
theorem claim4_final_resample_witness :
    ∃ (s : SMCState ℚ ℚ) (evs : List (SMCEvent ℚ)),
      smc_loop egSamplerCut egEnergy egIdEnergy egSamplerCut.num_timesteps
          (init_timesteps egSamplerCut.num_timesteps).dropLast.enum 0
          ⟨init_filter egSamplerCut egIdEnergy [0, 2],
           (init_filter egSamplerCut egIdEnergy [0, 2]).map (fun _ => egSamplerCut.oneW),
           egSamplerCut.langevin_eps,
           List.range (init_filter egSamplerCut egIdEnergy [0, 2]).length, [0, 0, 0, 0]⟩
        = .ok (s, evs) ∧
      ([0] : List ℚ) = (resample egSamplerCut s.X s.A s.rng).1.1 ∧
      ([2] : List ℚ) = s.A ∧
      ([SMCEvent.kernelCall (0 : ℚ) 0,
        SMCEvent.resampleEvent true ([2] : List ℚ) [2]]
        = evs ++ [SMCEvent.resampleEvent true s.A s.A]) ∧
      ([SMCEvent.kernelCall (0 : ℚ) 0,
        SMCEvent.resampleEvent true ([2] : List ℚ) [2]].filter
          (fun e => isFinalResample e)
        = [SMCEvent.resampleEvent true s.A s.A]) :=
  claim4_final_resample egSamplerCut [0, 2] egEnergy egIdEnergy [0, 0, 0, 0]
    [0] [2]
    [SMCEvent.kernelCall 0 0, SMCEvent.resampleEvent true [2] [2]]
    (by norm_num [sample, init_filter, init_timesteps, smc_loop, smc_step, smc_global,
      nan_checkpoint, runBatches, toBatches, toBatchesGo, pointwiseKernel, listMean,
      resample, softmax, cumsum, searchsorted, indexSel, update_step_size, maskSelect,
      egSamplerCut, egSampler, egKernel, egEnergy, egIdEnergy, List.enum, List.enumFrom,
      Except.bind, Except.map,
      List.range_succ, List.countP_cons, List.countP_nil, List.getD])

/-- Counterexample to C5 as stated: a complete concrete run of `sample`
whose trace contains a resampling event (the unconditional terminal one)
immediately after which the weight vector is `[2, 2]`, not the identity
vector — so it is not the case that the weights are reset after every
resampling event performed during a run. -/
theorem claim5_counterexample :
    sample egSampler [0, 0] egEnergy egEnergy [0, 0, 0, 0]
      = .ok (some ([0, 0], [2, 2]),
          [SMCEvent.kernelCall 0 0, SMCEvent.resampleEvent true [2, 2] [2, 2]]) ∧
    ¬ (∀ (f : Bool) (wB wA : List ℚ),
        SMCEvent.resampleEvent f wB wA
          ∈ [SMCEvent.kernelCall (0 : ℚ) 0,
             SMCEvent.resampleEvent true ([2, 2] : List ℚ) [2, 2]] →
        wA = wB.map (fun _ => (1 : ℚ))) := by
  constructor
  · norm_num [sample, init_filter, init_timesteps, smc_loop, smc_step, smc_global,
      nan_checkpoint, runBatches, toBatches, toBatchesGo, pointwiseKernel, listMean,
      resample, softmax, cumsum, searchsorted, indexSel, update_step_size,
      egSampler, egKernel, egEnergy, List.enum, List.enumFrom, Except.bind, Except.map,
      List.range_succ, List.countP_cons, List.countP_nil, List.getD]
  · intro hall
    have h := hall true [2, 2] [2, 2] (by simp)
    simp at h

/-- C5 (amended): immediately after any ESS-triggered mid-run resampling
event performed during a run of `sample`, the log-weight vector is reset to
the identity value (every entry is the sampler's weight-one scalar); the
unconditional terminal resampling is exempt — it leaves the weight vector
un-reset. -/
theorem claim5_midrun_weight_reset [Inhabited α] (S : SMCSampler α β) (P : List α)
    (se te : List α → List ℚ) (rng : List ℚ) (out : Option (List α × List β))
    (tr : List (SMCEvent β)) (h : sample S P se te rng = .ok (out, tr)) :
    ∀ wB wA, SMCEvent.resampleEvent false wB wA ∈ tr →
      wA = wB.map (fun _ => S.oneW) := by
  intro wB wA hmem
  by_cases hen : S.enabled
  · rw [sample_unfold_enabled S P se te rng hen] at h
    cases hl : smc_loop S se te S.num_timesteps
        (init_timesteps S.num_timesteps).dropLast.enum 0
        ⟨init_filter S te P, (init_filter S te P).map (fun _ => S.oneW),
         S.langevin_eps, List.range (init_filter S te P).length, rng⟩ with
    | error e => rw [hl, except_bind_error] at h; exact absurd h (by simp)
    | ok p =>
        rw [hl, except_bind_ok] at h
        by_cases hc : ((resample S p.1.X p.1.A p.1.rng).1.1).length = (init_filter S te P).length
        · rw [if_pos hc] at h
          injection h with hpair
          injection hpair with _ hevs
          rw [← hevs] at hmem
          rcases List.mem_append.mp hmem with hmem | hmem
          · rcases smc_loop_events_shape S se te S.num_timesteps _ 0 _ p.1 p.2
                (by rw [hl]) _ hmem with ⟨pp, _, dt', heq⟩ | ⟨wB', heq⟩
            · exact absurd heq (by simp)
            · injection heq with _ h1 h2
              rw [h2, h1]
          · rcases List.mem_singleton.mp hmem with heq
            injection heq with hflag _ _
            exact absurd hflag (by simp)
        · rw [if_neg hc] at h
          exact absurd h (by simp)
  · unfold sample at h
    rw [if_pos hen] at h
    injection h with hpair
    injection hpair with _ hevs
    rw [← hevs] at hmem
    exact absurd hmem (List.not_mem_nil _)

/-- Witness for the amended C5: a concrete run in which the energy cutoff
drops one input particle at INIT and an ESS-triggered mid-run resampling
occurs; its trace contains the mid-run resampling event with weights `[2]`
before and `[1]` after, and the theorem yields that the post-event weights
are the all-ones vector. -/
theorem claim5_midrun_weight_reset_witness :
    ([1] : List ℚ) = ([2] : List ℚ).map (fun _ => (1 : ℚ)) :=
  claim5_midrun_weight_reset egSampler2Cut [0, 2] egEnergy egIdEnergy [0, 0, 0, 0]
    (some ([0], [2]))
    [SMCEvent.kernelCall 0 0, SMCEvent.resampleEvent false [2] [1],
     SMCEvent.kernelCall (1/2) (1/2), SMCEvent.resampleEvent true [2] [2]]
    (by norm_num [sample, init_filter, init_timesteps, smc_loop, smc_step, smc_global,
      nan_checkpoint, runBatches, toBatches, toBatchesGo, pointwiseKernel, listMean,
      resample, softmax, cumsum, searchsorted, indexSel, update_step_size, maskSelect,
      egSampler2Cut, egSampler2, egSampler, egKernel, egEnergy, egIdEnergy,
      List.enum, List.enumFrom, Except.bind, Except.map,
      List.range_succ, List.countP_cons, List.countP_nil, List.getD])
    [2] [1] (by simp)

theorem runBatches_error_of_nan (S : SMCSampler α β) (se te : List α → List ℚ)
    (t dt : ℚ) (b : ℕ) (hb : b ≠ 0) :
    ∀ (n : ℕ) (X : List α) (A : List β), X.length ≤ n → X.length = A.length →
      X.any S.isnanP = true →
      runBatches S se te t dt ((toBatches b X).zip (toBatches b A))
        = .error "X contains NaNs" := by
  intro n
  induction n with
  | zero =>
      intro X A hXn _ hany
      have hX : X = [] := List.length_eq_zero.mp (Nat.le_zero.mp hXn)
      rw [hX] at hany
      simp at hany
  | succ n ih =>
      intro X A hXn hlen hany
      match X, A with
      | [], _ => simp at hany
      | x :: X', [] => simp at hlen
      | x :: X', a :: A' =>
          rw [toBatches_cons b hb, toBatches_cons b hb, List.zip_cons_cons]
          by_cases hnan : ((x :: X').take b).any S.isnanP
          · simp only [runBatches, hnan, if_true]
          · have hdany : ((x :: X').drop b).any S.isnanP = true := by
              rw [← List.take_append_drop b (x :: X'), List.any_append] at hany
              rcases Bool.or_eq_true_iff.mp hany with h1 | h1
              · exact absurd h1 hnan
              · exact h1
            have hdlen : ((x :: X').drop b).length ≤ n := by
              have hb1 : 1 ≤ b := Nat.one_le_iff_ne_zero.mpr hb
              simp only [List.length_drop, List.length_cons]
              simp only [List.length_cons] at hXn
              omega
            have hdeq : ((x :: X').drop b).length = ((a :: A').drop b).length := by
              simp only [List.length_drop, hlen]
            simp only [runBatches, hnan, if_false, Bool.false_eq_true]
            rw [ih _ _ hdlen hdeq hdany, except_map_error]

/-- C7: the NaN checks of `sample` are fatal and identify the corrupted
array.  When the coordinates contain a NaN at the post-concatenation
checkpoint the run raises `"X has NaNs"`; when the coordinates are clean
but the weights contain a NaN it raises `"A has NaNs"`; when the incoming
coordinates of the step contain a NaN the per-batch pre-check raises
`"X contains NaNs"` before the kernel runs; and any error raised by a step
propagates unchanged through the driving loop — there is no retry or
recovery. -/
theorem claim7_nan_abort [Inhabited α] (S : SMCSampler α β)
    (se te : List α → List ℚ) (T j : ℕ) (t tp : ℚ) (s : SMCState α β)
    (X : List α) (A : List β)
    (hb : S.batch_size ≠ 0) (hlen : s.X.length = s.A.length) :
    (X.any S.isnanP = true → nan_checkpoint S X A = .error "X has NaNs") ∧
    (X.any S.isnanP = false → A.any S.isnanW = true →
      nan_checkpoint S X A = .error "A has NaNs") ∧
    (s.X.any S.isnanP = true →
      smc_step S se te T j t tp s = .error "X contains NaNs") ∧
    (∀ (m : String) (rest : List (ℕ × ℚ)),
      smc_step S se te T j t tp s = .error m →
      smc_loop S se te T ((j, t) :: rest) tp s = .error m) ∧
    (∀ (m : String) (P : List α) (rng : List ℚ),
      S.enabled = true →
      smc_loop S se te S.num_timesteps
          (init_timesteps S.num_timesteps).dropLast.enum 0
          ⟨init_filter S te P, (init_filter S te P).map (fun _ => S.oneW),
           S.langevin_eps, List.range (init_filter S te P).length, rng⟩
        = .error m →
      sample S P se te rng = .error m) := by
  refine ⟨?_, ?_, ?_, ?_, ?_⟩
  · intro h1
    simp only [nan_checkpoint, h1, if_true]
  · intro h1 h2
    simp only [nan_checkpoint, h1, Bool.false_eq_true, if_false, h2, if_true]
  · intro hany
    unfold smc_step
    rw [runBatches_error_of_nan S se te t (t - tp) S.batch_size hb
      s.X.length s.X s.A (Nat.le_refl _) hlen hany, except_bind_error]
  · intro m rest hstep
    exact smc_loop_cons_error S se te T j t tp rest s m hstep
  · intro m P rng hen hloop
    rw [sample_unfold_enabled S P se te rng hen, hloop, except_bind_error]

/-- Witness for C7: a sampler whose NaN model marks the value 999, a
corrupted coordinate pool and a corrupted weight vector. -/
theorem claim7_nan_abort_witness :
    (([999, 0] : List ℚ).any egSamplerNaN.isnanP = true →
      nan_checkpoint egSamplerNaN [999, 0] [1, 999] = .error "X has NaNs") ∧
    (([999, 0] : List ℚ).any egSamplerNaN.isnanP = false →
      ([1, 999] : List ℚ).any egSamplerNaN.isnanW = true →
      nan_checkpoint egSamplerNaN [999, 0] [1, 999] = .error "A has NaNs") ∧
    ((SMCState.mk [999, 0] [1, 1] 1 [0, 1] [] : SMCState ℚ ℚ).X.any
        egSamplerNaN.isnanP = true →
      smc_step egSamplerNaN egEnergy egEnergy 1 0 0 0
          (SMCState.mk [999, 0] [1, 1] 1 [0, 1] [])
        = .error "X contains NaNs") ∧
    (∀ (m : String) (rest : List (ℕ × ℚ)),
      smc_step egSamplerNaN egEnergy egEnergy 1 0 0 0
          (SMCState.mk [999, 0] [1, 1] 1 [0, 1] []) = .error m →
      smc_loop egSamplerNaN egEnergy egEnergy 1 ((0, 0) :: rest) 0
          (SMCState.mk [999, 0] [1, 1] 1 [0, 1] []) = .error m) ∧
    (∀ (m : String) (P : List ℚ) (rng : List ℚ),
      egSamplerNaN.enabled = true →
      smc_loop egSamplerNaN egEnergy egEnergy egSamplerNaN.num_timesteps
          (init_timesteps egSamplerNaN.num_timesteps).dropLast.enum 0
          ⟨init_filter egSamplerNaN egEnergy P,
           (init_filter egSamplerNaN egEnergy P).map (fun _ => egSamplerNaN.oneW),
           egSamplerNaN.langevin_eps,
           List.range (init_filter egSamplerNaN egEnergy P).length, rng⟩
        = .error m →
      sample egSamplerNaN P egEnergy egEnergy rng = .error m) :=
  claim7_nan_abort egSamplerNaN egEnergy egEnergy 1 0 0 0
    (SMCState.mk [999, 0] [1, 1] 1 [0, 1] []) [999, 0] [1, 999]
    (by norm_num [egSamplerNaN, egSampler]) rfl

theorem enum_map_range (f : ℕ → ℚ) :
    ∀ (n : ℕ), ((List.range n).map f).enum = (List.range n).map (fun i => (i, f i)) := by
  intro n
  induction n with
  | zero => rfl
  | succ n ih =>
      rw [List.range_succ, List.map_append, List.map_append, List.enum_append, ih]
      simp [List.enumFrom]

theorem init_timesteps_enum (T : ℕ) :
    (init_timesteps T).dropLast.enum
      = (List.range T).map (fun i : ℕ => (i, (i : ℚ) / (T : ℚ))) := by
  unfold init_timesteps
  have hdrop : ((List.range (T + 1)).map (fun i : ℕ => (i : ℚ) / (T : ℚ))).dropLast
      = (List.range T).map (fun i : ℕ => (i : ℚ) / (T : ℚ)) := by
    rw [List.range_succ, List.map_append]
    simp [List.dropLast_concat]
  rw [hdrop, enum_map_range]

theorem smc_step_kernel_mem [Inhabited α] (S : SMCSampler α β)
    (se te : List α → List ℚ) (T j : ℕ) (t tp : ℚ) (s s' : SMCState α β)
    (evs : List (SMCEvent β)) (hb : S.batch_size ≠ 0) (hX : s.X ≠ [])
    (hlen : s.X.length = s.A.length)
    (h : smc_step S se te T j t tp s = .ok (s', evs)) :
    SMCEvent.kernelCall t (t - tp) ∈ evs ∧
    evs.head? = some (SMCEvent.kernelCall t (t - tp)) := by
  obtain ⟨nb, tail, hsplit, hnb, _⟩ := smc_step_ok_events S se te T j t tp s s' evs h
  match hXe : s.X, hX with
  | x :: X', _ =>
      have hA : s.A ≠ [] := by
        intro hA0
        rw [hXe, hA0] at hlen
        simp at hlen
      match hAe : s.A, hA with
      | a :: A', _ =>
          rw [hXe, hAe, toBatches_cons S.batch_size hb, toBatches_cons S.batch_size hb,
            List.zip_cons_cons] at hnb
          simp only [List.length_cons] at hnb
          match hnbe : nb, hnb with
          | nb' + 1, _ =>
              rw [hsplit, List.replicate_succ]
              exact ⟨List.mem_cons_self _ _, rfl⟩

theorem smc_loop_coverage [Inhabited α] (S : SMCSampler α β)
    (se te : List α → List ℚ) (T : ℕ) (k : ℚ → ℚ → α → β → α × β × ℚ)
    (hk : S.mcmc_kernel = pointwiseKernel k) (hb : S.batch_size ≠ 0) :
    ∀ (ts : List (ℕ × ℚ)) (tp : ℚ) (s s2 : SMCState α β) (evs : List (SMCEvent β)),
      s.X ≠ [] → s.X.length = s.A.length →
      smc_loop S se te T ts tp s = .ok (s2, evs) →
      ∀ p ∈ ts, ∃ dt', SMCEvent.kernelCall p.2 dt' ∈ evs := by
  intro ts
  induction ts with
  | nil =>
      intro tp s s2 evs _ _ _ p hp
      exact absurd hp (List.not_mem_nil p)
  | cons jt rest ih =>
      intro tp s s2 evs hX hlen h p hp
      match jt with
      | (j, t) =>
          cases hstep : smc_step S se te T j t tp s with
          | error e =>
              rw [smc_loop_cons_error S se te T j t tp rest s e hstep] at h
              exact absurd h (by simp)
          | ok q =>
              rw [smc_loop_cons_ok S se te T j t tp rest s q hstep] at h
              cases hl : smc_loop S se te T rest t q.1 with
              | error e => rw [hl, except_bind_error] at h; exact absurd h (by simp)
              | ok r =>
                  rw [hl, except_bind_ok] at h
                  injection h with hpair
                  injection hpair with _ hevs
                  rcases List.mem_cons.mp hp with rfl | hp
                  · obtain ⟨hmem, _⟩ := smc_step_kernel_mem S se te T j t tp s q.1 q.2
                      hb hX hlen (by rw [hstep])
                    exact ⟨t - tp, by rw [← hevs]; exact List.mem_append_left _ hmem⟩
                  · obtain ⟨hinv1, hinv2⟩ := smc_step_ok_inv S se te k hk hb T j t tp s
                      q.1 q.2 hlen (by rw [hstep])
                    have hX' : q.1.X ≠ [] := by
                      intro h0
                      rw [h0] at hinv1
                      simp at hinv1
                      exact hX (List.length_eq_zero.mp hinv1.symm)
                    obtain ⟨dt', hmem⟩ := ih t q.1 r.1 r.2 hX'
                      (hinv1.trans hinv2.symm) (by rw [hl]) p hp
                    exact ⟨dt', by rw [← hevs]; exact List.mem_append_right _ hmem⟩

theorem smc_loop_head_event [Inhabited α] (S : SMCSampler α β)
    (se te : List α → List ℚ) (T j : ℕ) (t tp : ℚ) (rest : List (ℕ × ℚ))
    (s s2 : SMCState α β) (evs : List (SMCEvent β)) (hb : S.batch_size ≠ 0)
    (hX : s.X ≠ []) (hlen : s.X.length = s.A.length)
    (h : smc_loop S se te T ((j, t) :: rest) tp s = .ok (s2, evs)) :
    evs.head? = some (SMCEvent.kernelCall t (t - tp)) := by
  cases hstep : smc_step S se te T j t tp s with
  | error e =>
      rw [smc_loop_cons_error S se te T j t tp rest s e hstep] at h
      exact absurd h (by simp)
  | ok q =>
      rw [smc_loop_cons_ok S se te T j t tp rest s q hstep] at h
      cases hl : smc_loop S se te T rest t q.1 with
      | error e => rw [hl, except_bind_error] at h; exact absurd h (by simp)
      | ok r =>
          rw [hl, except_bind_ok] at h
          injection h with hpair
          injection hpair with _ hevs
          obtain ⟨_, hhead⟩ := smc_step_kernel_mem S se te T j t tp s q.1 q.2
            hb hX hlen (by rw [hstep])
          rw [← hevs]
          match hq : q.2, hhead with
          | e0 :: q2', hhead =>
              injection hhead with hhead
              rw [List.cons_append, List.head?_cons, hhead]

/-- C10: in a completed enabled run of `sample` with a nonempty unfiltered
pool and `T = num_timesteps ≥ 1`, the local-move kernel is invoked exactly
at the first `T` schedule times `0, 1/T, …, (T-1)/T`: every kernel
invocation in the trace happens at one of those times, each of those times
has at least one invocation, the kernel is never invoked at the final
schedule time `1`, and the first invocation receives `dt = 0`. -/
theorem claim10_kernel_schedule [Inhabited α] (S : SMCSampler α β)
    (k : ℚ → ℚ → α → β → α × β × ℚ) (hk : S.mcmc_kernel = pointwiseKernel k)
    (P : List α) (se te : List α → List ℚ) (rng : List ℚ)
    (out : Option (List α × List β)) (tr : List (SMCEvent β))
    (hb : S.batch_size ≠ 0) (hcut : S.input_energy_cutoff = none)
    (hP : P ≠ []) (hT : 1 ≤ S.num_timesteps) (hen : S.enabled = true)
    (h : sample S P se te rng = .ok (out, tr)) :
    (∀ t dt, SMCEvent.kernelCall t dt ∈ tr →
      ∃ i, i < S.num_timesteps ∧ t = (i : ℚ) / (S.num_timesteps : ℚ)) ∧
    (∀ i, i < S.num_timesteps →
      ∃ dt, SMCEvent.kernelCall ((i : ℚ) / (S.num_timesteps : ℚ)) dt ∈ tr) ∧
    (∀ dt, SMCEvent.kernelCall 1 dt ∉ tr) ∧
    tr.head? = some (SMCEvent.kernelCall 0 0) := by
  have hfil : init_filter S te P = P := by
    unfold init_filter
    rw [hcut]
  have hTQ : (0 : ℚ) < (S.num_timesteps : ℚ) := by
    have : 0 < S.num_timesteps := hT
    exact_mod_cast this
  rw [sample_unfold_enabled S P se te rng hen] at h
  cases hl : smc_loop S se te S.num_timesteps
      (init_timesteps S.num_timesteps).dropLast.enum 0
      ⟨init_filter S te P, (init_filter S te P).map (fun _ => S.oneW),
       S.langevin_eps, List.range (init_filter S te P).length, rng⟩ with
  | error e => rw [hl, except_bind_error] at h; exact absurd h (by simp)
  | ok p =>
      rw [hl, except_bind_ok] at h
      by_cases hc : ((resample S p.1.X p.1.A p.1.rng).1.1).length = (init_filter S te P).length
      · rw [if_pos hc] at h
        injection h with hpair
        injection hpair with _ hevs
        have henum := init_timesteps_enum S.num_timesteps
        have hX0 : init_filter S te P ≠ [] := by rw [hfil]; exact hP
        have hsound : ∀ t dt, SMCEvent.kernelCall t dt ∈ tr →
            ∃ i, i < S.num_timesteps ∧ t = (i : ℚ) / (S.num_timesteps : ℚ) := by
          intro t dt hmem
          rw [← hevs] at hmem
          rcases List.mem_append.mp hmem with hmem | hmem
          · rcases smc_loop_events_shape S se te S.num_timesteps _ 0 _ p.1 p.2
                (by rw [hl]) _ hmem with ⟨pp, hpp, dt'', heq⟩ | ⟨wB, heq⟩
            · rw [henum] at hpp
              obtain ⟨i, hi, rfl⟩ := List.mem_map.mp hpp
              injection heq with ht _
              exact ⟨i, List.mem_range.mp hi, ht⟩
            · exact absurd heq (by simp)
          · have heq := List.mem_singleton.mp hmem
            exact absurd heq (by simp)
        refine ⟨hsound, ?_, ?_, ?_⟩
        · intro i hi
          have hpp : ((i, (i : ℚ) / (S.num_timesteps : ℚ)) : ℕ × ℚ)
              ∈ (init_timesteps S.num_timesteps).dropLast.enum := by
            rw [henum]
            exact List.mem_map.mpr ⟨i, List.mem_range.mpr hi, rfl⟩
          obtain ⟨dt', hmem⟩ := smc_loop_coverage S se te S.num_timesteps k hk hb
            _ 0 _ p.1 p.2 hX0 (List.length_map _ _).symm (by rw [hl])
            (i, (i : ℚ) / (S.num_timesteps : ℚ)) hpp
          exact ⟨dt', by rw [← hevs]; exact List.mem_append_left _ hmem⟩
        · intro dt hmem
          obtain ⟨i, hi, hti⟩ := hsound 1 dt hmem
          have hlt : (i : ℚ) / (S.num_timesteps : ℚ) < 1 := by
            refine (div_lt_one hTQ).mpr ?_
            exact_mod_cast hi
          rw [← hti] at hlt
          exact lt_irrefl 1 hlt
        · obtain ⟨m, hm⟩ : ∃ m, S.num_timesteps = m + 1 := ⟨S.num_timesteps - 1, by omega⟩
          have hl2 := hl
          rw [henum, hm, List.range_succ_eq_map, List.map_cons] at hl2
          have hhead := smc_loop_head_event S se te (m + 1) 0
            (((0 : ℕ) : ℚ) / ((m + 1 : ℕ) : ℚ)) 0
            (((List.range m).map Nat.succ).map
              (fun i : ℕ => (i, (i : ℚ) / ((m + 1 : ℕ) : ℚ))))
            ⟨init_filter S te P, (init_filter S te P).map (fun _ => S.oneW),
             S.langevin_eps, List.range (init_filter S te P).length, rng⟩
            p.1 p.2 hb hX0 (List.length_map _ _).symm hl2
          have h00 : (((0 : ℕ) : ℚ) / ((m + 1 : ℕ) : ℚ)) = 0 := by simp
          rw [h00, sub_zero] at hhead
          rw [← hevs]
          match hp2 : p.2, hhead with
          | e0 :: p2', hhead =>
              injection hhead with hhead
              rw [List.cons_append, List.head?_cons, hhead]
      · rw [if_neg hc] at h
        exact absurd h (by simp)

/-- Witness for C10: the concrete two-particle single-step run. -/
theorem claim10_kernel_schedule_witness :
    (∀ t dt, SMCEvent.kernelCall t dt
        ∈ [SMCEvent.kernelCall (0 : ℚ) 0,
           SMCEvent.resampleEvent true ([2, 2] : List ℚ) [2, 2]] →
      ∃ i, i < egSampler.num_timesteps ∧
        t = (i : ℚ) / (egSampler.num_timesteps : ℚ)) ∧
    (∀ i, i < egSampler.num_timesteps →
      ∃ dt, SMCEvent.kernelCall ((i : ℚ) / (egSampler.num_timesteps : ℚ)) dt
        ∈ [SMCEvent.kernelCall (0 : ℚ) 0,
           SMCEvent.resampleEvent true ([2, 2] : List ℚ) [2, 2]]) ∧
    (∀ dt, SMCEvent.kernelCall 1 dt
        ∉ [SMCEvent.kernelCall (0 : ℚ) 0,
           SMCEvent.resampleEvent true ([2, 2] : List ℚ) [2, 2]]) ∧
    ([SMCEvent.kernelCall (0 : ℚ) 0,
      SMCEvent.resampleEvent true ([2, 2] : List ℚ) [2, 2]].head?
      = some (SMCEvent.kernelCall 0 0)) :=
  claim10_kernel_schedule egSampler egKernel rfl [0, 0] egEnergy egEnergy
    [0, 0, 0, 0] (some ([0, 0], [2, 2]))
    [SMCEvent.kernelCall 0 0, SMCEvent.resampleEvent true [2, 2] [2, 2]]
    (by norm_num [egSampler]) rfl (by simp) (by norm_num [egSampler]) rfl
    (by norm_num [sample, init_filter, init_timesteps, smc_loop, smc_step, smc_global,
      nan_checkpoint, runBatches, toBatches, toBatchesGo, pointwiseKernel, listMean,
      resample, softmax, cumsum, searchsorted, indexSel, update_step_size,
      egSampler, egKernel, egEnergy, List.enum, List.enumFrom, Except.bind, Except.map,
      List.range_succ, List.countP_cons, List.countP_nil, List.getD])
